import Mathlib

/-!
# friedrichdb: the value core (`basic_field`)

A shallow embedding of `header/friedrichdb/core/basic_field.hpp`.

* A heap cell owned through a raw pointer is an `Option`: `none` is `nullptr`,
  `some x` is a live cell holding `x`.
* The C++ `union payload` does not record which member is active; the model records
  it as the constructor of `payload`, so that a field whose tag and payload disagree
  is a value of the model and the invariant is a theorem, not a typing accident.
* An `assert` is checked, as in a build without `NDEBUG`: a false condition stops the
  call with `failure.contract_violation`.
* A member function that mutates the field returns the outcome of the call together
  with the state of the field when the call returned, or when it stopped at a failed
  `assert`. A `const` member function is a function of the field.
* A field handed to `emplace` or `emplace_back` is moved in; the state the caller's
  variable is left in is the second component of `ctor_move`.
-/

namespace friedrichdb.core

/-- The tag `enum class field_type : uint8_t`. -/
inductive field_type
  | null
  | boolean
  | number
  | string
  | array
  | object
  deriving DecidableEq, Repr

/-- The ways a call can stop without a result. -/
inductive failure
  /-- An `assert(...)` whose condition is false. -/
  | contract_violation
  /-- The exception `std::out_of_range` thrown by a container's `at`. -/
  | out_of_range
  /-- Behaviour the C++ leaves undefined: a null pointer dereferenced, a union member
  used as a cell of another type, control reaching the end of a non-void function. -/
  | undefined
  deriving DecidableEq, Repr

/-- Modelled from the spec: `basic_string_t` is declared in type.hpp, which is not under
src/. The spec calls it "an owned character sequence" ordered lexicographically. -/
abbrev string_t := String

/-- Modelled from the spec: `basic_vector_t` is declared in type.hpp, which is not under
src/. The spec calls it "an owned, ordered sequence" with "standard sequence semantics":
`emplace_back` appends, `at(n)` is the checked `n`-th element, `size` the length. -/
abbrev basic_vector_t (V : Type) := List V

/-- Modelled from the spec: `basic_map_t` is declared in type.hpp, which is not under src/.
The spec calls it "an owned ordered mapping from String", "keys unique; ordering follows
the underlying total order of keys", with "standard mapping semantics"; the source
instantiates it with the comparator `std::less<>`. The model is the sequence of entries
in iteration order. -/
abbrev basic_map_t (V : Type) := List (string_t × V)

namespace basic_map_t

/-- Keyed lookup of an ordered map with comparator `<`: walk to the first entry whose key
is not less than `k`; it is the entry of `k` unless `k` is less than its key. -/
def find {V : Type} (k : string_t) : basic_map_t V → Option V
  | [] => none
  | (k', v) :: rest =>
    if k' < k then find k rest
    else if k < k' then none
    else some v

/-- The member `emplace` of the map: the entry is inserted at its place in key order
when no entry has an equivalent key; otherwise the map is left as it is. -/
def emplace {V : Type} (k : string_t) (v : V) : basic_map_t V → basic_map_t V
  | [] => [(k, v)]
  | (k', v') :: rest =>
    if k' < k then (k', v') :: emplace k v rest
    else if k < k' then (k, v) :: (k', v') :: rest
    else (k', v') :: rest

/-- The member `erase(key)` of the map: the entry with an equivalent key is removed. -/
def erase {V : Type} (k : string_t) : basic_map_t V → basic_map_t V
  | [] => []
  | (k', v') :: rest =>
    if k' < k then (k', v') :: erase k rest
    else if k < k' then (k', v') :: rest
    else rest

/-- Keys strictly increasing in iteration order: the representation invariant of an
ordered map with unique keys. -/
def ordered {V : Type} (m : basic_map_t V) : Prop :=
  m.Pairwise (fun x y => x.1 < y.1)

end basic_map_t

/-- The `union payload`: one constructor per member. -/
inductive payload (F : Type) (number_t : Type)
  /-- The member `object_t *object_`. -/
  | object_ (p : Option (List (string_t × F)))
  /-- The member `array_t *array_`. -/
  | array_ (p : Option (List F))
  /-- The member `string_t *string_`. -/
  | string_ (p : Option string_t)
  /-- The member `boolean_t boolean_`, held inline. -/
  | boolean_ (b : Bool)
  /-- The member `number_t *number_`. -/
  | number_ (p : Option number_t)

/-- The class `basic_field`: the tag `type_` and the owning pointer `payload_` (`none` is
an empty `Unique_Ptr_T`). The type `number_t` is declared in number.hpp, which is not
under src/; it is a parameter. -/
inductive basic_field (number_t : Type)
  | mk (type_ : field_type) (payload_ : Option (payload (basic_field number_t) number_t))

namespace payload

variable {F number_t : Type}

/-- The constructor `payload(field_type t)`: a fresh default cell for the heap kinds (the
number cell is `create<number_t>(0)`), the inline default for boolean, and
`object_ = nullptr` for null. -/
def of_field_type [Zero number_t] (t : field_type) : payload F number_t :=
  match t with
  | .object => .object_ (some [])
  | .array => .array_ (some [])
  | .string => .string_ (some "")
  | .boolean => .boolean_ false
  | .number => .number_ (some 0)
  | .null => .object_ none

/-- The test `payload_->m_ != nullptr` of `assert_invariant`, for any pointer member `m_`:
the pointer members of the union share their storage, so the test reads the pointer that
was stored last. A union that holds the inline boolean has no pointer stored; the model
takes the test as failed there. -/
def pointer_nonnull : payload F number_t → Bool
  | .object_ p => p.isSome
  | .array_ p => p.isSome
  | .string_ p => p.isSome
  | .number_ p => p.isSome
  | .boolean_ _ => false

end payload

namespace basic_field

variable {number_t : Type}

/-- The data member `type_`. -/
def type_ : basic_field number_t → field_type
  | mk t _ => t

/-- The data member `payload_`. -/
def payload_ : basic_field number_t → Option (payload (basic_field number_t) number_t)
  | mk _ p => p

/-- The member `assert_invariant`: whether its four assertions hold. Each is
`type_ != K or payload_->k_ != nullptr`, so `payload_` is dereferenced only when the tag
is one of the four heap kinds; an empty `payload_` then counts as a failed assertion. -/
def assert_invariant (f : basic_field number_t) : Bool :=
  let nonnull : Bool :=
    match f.payload_ with
    | some p => p.pointer_nonnull
    | none => false
  (f.type_ != .object || nonnull) && (f.type_ != .array || nonnull)
    && (f.type_ != .string || nonnull) && (f.type_ != .number || nonnull)

/-- The predicate `is_string`. -/
def is_string (f : basic_field number_t) : Bool := f.type_ == .string

/-- The predicate `is_number`. -/
def is_number (f : basic_field number_t) : Bool := f.type_ == .number

/-- The predicate `is_bool`. -/
def is_bool (f : basic_field number_t) : Bool := f.type_ == .boolean

/-- The predicate `is_array`. -/
def is_array (f : basic_field number_t) : Bool := f.type_ == .array

/-- The predicate `is_object`. -/
def is_object (f : basic_field number_t) : Bool := f.type_ == .object

/-- The predicate `is_null`. -/
def is_null (f : basic_field number_t) : Bool := f.type_ == .null

/-- The accessor `get_number`: the assertion on the tag, then `*(payload_->number_)`. -/
def get_number (f : basic_field number_t) : Except failure number_t :=
  if f.type_ ≠ .number then .error .contract_violation
  else match f.payload_ with
    | some (.number_ (some n)) => .ok n
    | _ => .error .undefined

/-- The accessor `get_bool`: the assertion on the tag, then `payload_->boolean_`. -/
def get_bool (f : basic_field number_t) : Except failure Bool :=
  if f.type_ ≠ .boolean then .error .contract_violation
  else match f.payload_ with
    | some (.boolean_ b) => .ok b
    | _ => .error .undefined

/-- The accessor `get_string`: the assertion on the tag, then `*(payload_->string_)`. -/
def get_string (f : basic_field number_t) : Except failure string_t :=
  if f.type_ ≠ .string then .error .contract_violation
  else match f.payload_ with
    | some (.string_ (some s)) => .ok s
    | _ => .error .undefined

/-- The accessor `get_object`: the assertion on the tag, then `*(payload_->object_)`. -/
def get_object (f : basic_field number_t) :
    Except failure (basic_map_t (basic_field number_t)) :=
  if f.type_ ≠ .object then .error .contract_violation
  else match f.payload_ with
    | some (.object_ (some m)) => .ok m
    | _ => .error .undefined

/-- The accessor `get_array`: the assertion on the tag, then `*(payload_->array_)`. -/
def get_array (f : basic_field number_t) :
    Except failure (basic_vector_t (basic_field number_t)) :=
  if f.type_ ≠ .array then .error .contract_violation
  else match f.payload_ with
    | some (.array_ (some a)) => .ok a
    | _ => .error .undefined

/-- The constructor `basic_field(const field_type v)`. -/
def ctor_field_type [Zero number_t] (v : field_type) : Except failure (basic_field number_t) :=
  let this : basic_field number_t := mk v (some (payload.of_field_type v))
  if this.assert_invariant then .ok this else .error .contract_violation

/-- The constructor `basic_field(std::nullptr_t = nullptr)`, which is also the default
constructor: it delegates to `basic_field(field_type::null)` and asserts again. -/
def ctor_nullptr [Zero number_t] : Except failure (basic_field number_t) :=
  match ctor_field_type field_type.null with
  | .error e => .error e
  | .ok this => if this.assert_invariant then .ok this else .error .contract_violation

/-- The constructor `basic_field(bool value)`. -/
def ctor_bool (value : Bool) : basic_field number_t :=
  mk .boolean (some (.boolean_ value))

/-- The constructor `basic_field(T value)` for an arithmetic `T`; `value` is the
`number_t` that `create<AllocatorType, number_t>(value)` builds. -/
def ctor_number (value : number_t) : basic_field number_t :=
  mk .number (some (.number_ (some value)))

/-- The constructors `basic_field(const string_t &value)` and
`basic_field(const char *value)`. -/
def ctor_string (value : string_t) : basic_field number_t :=
  mk .string (some (.string_ (some value)))

/-- The move constructor `basic_field(basic_field &&other)`: the new field and the state
of `other` afterwards. -/
def ctor_move [Zero number_t] (other : basic_field number_t) :
    Except failure (basic_field number_t × basic_field number_t) :=
  -- type_(std::move(other.type_)), payload_(std::move(other.payload_))
  let this : basic_field number_t := mk other.type_ other.payload_
  let other : basic_field number_t := mk other.type_ none
  -- other.payload_.reset(new payload(field_type::number));
  let other : basic_field number_t := mk other.type_ (some (payload.of_field_type .number))
  -- other.assert_invariant();
  if !other.assert_invariant then .error .contract_violation
  else
    -- other.type_ = field_type::null;
    let other : basic_field number_t := mk .null other.payload_
    -- other.payload_.reset(new payload(field_type::null));
    let other : basic_field number_t := mk other.type_ (some (payload.of_field_type .null))
    -- assert_invariant();
    if !this.assert_invariant then .error .contract_violation
    else .ok (this, other)

/-- The member `at(const key_type &k) const`: `get_object().at(k)`. -/
def at_key (f : basic_field number_t) (k : string_t) : Except failure (basic_field number_t) :=
  match f.get_object with
  | .error e => .error e
  | .ok m =>
    match basic_map_t.find k m with
    | some v => .ok v
    | none => .error .out_of_range

/-- The member `emplace(Args &&... args)` called as `emplace(k, std::move(v))`. The map
builds its entry from the arguments, so the stored field is move-constructed from `v`. -/
def emplace [Zero number_t] (f : basic_field number_t) (k : string_t)
    (v : basic_field number_t) : Except failure Unit × basic_field number_t :=
  -- assert((is_null() or is_object()));
  if !(f.is_null || f.is_object) then (.error .contract_violation, f)
  else
    -- if (is_null()) { type_ = object; payload_.reset(new payload(object)); assert_invariant(); }
    let promoted : Bool := f.is_null
    let f : basic_field number_t :=
      if promoted then mk .object (some (payload.of_field_type .object)) else f
    if promoted && !f.assert_invariant then (.error .contract_violation, f)
    else
      -- get_object().emplace(std::forward<Args>(args)...);
      match f.get_object with
      | .error e => (.error e, f)
      | .ok m =>
        match ctor_move v with
        | .error e => (.error e, f)
        | .ok (node, _) =>
          (.ok (), mk f.type_ (some (.object_ (some (basic_map_t.emplace k node m)))))

/-- The member `at(size_type n) const`: `get_array().at(n)`. -/
def at_index (f : basic_field number_t) (n : Nat) : Except failure (basic_field number_t) :=
  match f.get_array with
  | .error e => .error e
  | .ok a =>
    match a.get? n with
    | some v => .ok v
    | none => .error .out_of_range

/-- The member `emplace_back(Args &&... args)` called as `emplace_back(std::move(v))`. The
vector builds its new last element from the argument, so the stored field is
move-constructed from `v`. -/
def emplace_back [Zero number_t] (f : basic_field number_t) (v : basic_field number_t) :
    Except failure Unit × basic_field number_t :=
  -- assert (is_null() or is_array());
  if !(f.is_null || f.is_array) then (.error .contract_violation, f)
  else
    -- if (is_null()) { type_ = array; payload_.reset(new payload(array)); assert_invariant(); }
    let promoted : Bool := f.is_null
    let f : basic_field number_t :=
      if promoted then mk .array (some (payload.of_field_type .array)) else f
    if promoted && !f.assert_invariant then (.error .contract_violation, f)
    else
      -- get_array().emplace_back(std::forward<Args>(args)...);
      match f.get_array with
      | .error e => (.error e, f)
      | .ok a =>
        match ctor_move v with
        | .error e => (.error e, f)
        | .ok (element, _) => (.ok (), mk f.type_ (some (.array_ (some (a ++ [element])))))

/-- The member `erase(const key_type &key)`: `get_object().erase(key)`. -/
def erase (f : basic_field number_t) (key : string_t) :
    Except failure Unit × basic_field number_t :=
  match f.get_object with
  | .error e => (.error e, f)
  | .ok m => (.ok (), mk f.type_ (some (.object_ (some (basic_map_t.erase key m)))))

/-- The member `empty() const`. -/
def empty (f : basic_field number_t) : Except failure Bool :=
  match f.type_ with
  | .null => .ok true
  | .array =>
    match f.get_array with
    | .error e => .error e
    | .ok a => .ok a.isEmpty
  | .object =>
    match f.get_object with
    | .error e => .error e
    | .ok m => .ok m.isEmpty
  | _ => .ok false

/-- The member `size() const`. -/
def size (f : basic_field number_t) : Except failure Nat :=
  match f.type_ with
  | .null => .ok 0
  | .array =>
    match f.get_array with
    | .error e => .error e
    | .ok a => .ok a.length
  | .object =>
    match f.get_object with
    | .error e => .error e
    | .ok m => .ok m.length
  | _ => .ok 1

/-- The member `clear()`. The number case is empty in the source (its assignment is
commented out); the boolean case stores `false` through the reference `get_bool()`. -/
def clear (f : basic_field number_t) : Except failure Unit × basic_field number_t :=
  match f.type_ with
  | .number => (.ok (), f)
  | .boolean =>
    match f.payload_ with
    | some _ => (.ok (), mk f.type_ (some (.boolean_ false)))
    | none => (.error .undefined, f)
  | .string =>
    match f.get_string with
    | .error e => (.error e, f)
    | .ok _ => (.ok (), mk f.type_ (some (.string_ (some ""))))
  | .array =>
    match f.get_array with
    | .error e => (.error e, f)
    | .ok _ => (.ok (), mk f.type_ (some (.array_ (some []))))
  | .object =>
    match f.get_object with
    | .error e => (.error e, f)
    | .ok _ => (.ok (), mk f.type_ (some (.object_ (some []))))
  | .null => (.ok (), f)

/-- The member `operator==`. Its switch has no case for array and object and no statement
follows it, so for two fields of the same composite kind control reaches the end of the
function without a return. -/
def operator_eq [BEq number_t] (f rhs : basic_field number_t) : Except failure Bool :=
  if f.type_ ≠ rhs.type_ then .ok false
  else
    match f.type_ with
    | .null => .ok true
    | .number =>
      match f.get_number, rhs.get_number with
      | .ok x, .ok y => .ok (x == y)
      | .error e, _ => .error e
      | _, .error e => .error e
    | .string =>
      match f.get_string, rhs.get_string with
      | .ok x, .ok y => .ok (x == y)
      | .error e, _ => .error e
      | _, .error e => .error e
    | .boolean =>
      match f.get_bool, rhs.get_bool with
      | .ok x, .ok y => .ok (x == y)
      | .error e, _ => .error e
      | _, .error e => .error e
    | _ => .error .undefined

/-- The member `operator!=`: `!(*this == rhs)`. -/
def operator_ne [BEq number_t] (f rhs : basic_field number_t) : Except failure Bool :=
  match f.operator_eq rhs with
  | .ok b => .ok (!b)
  | .error e => .error e

/-- The member `operator<`. Only the tag of the left operand is inspected; the tag of
`rhs` is checked by the assertion of the accessor called on it. The switch has no case
for array and object and no statement follows it. -/
def operator_lt [LT number_t] [DecidableRel (LT.lt : number_t → number_t → Prop)]
    (f rhs : basic_field number_t) : Except failure Bool :=
  match f.type_ with
  | .null => .ok false
  | .number =>
    match f.get_number, rhs.get_number with
    | .ok x, .ok y => .ok (decide (x < y))
    | .error e, _ => .error e
    | _, .error e => .error e
  | .string =>
    match f.get_string, rhs.get_string with
    | .ok x, .ok y => .ok (decide (x < y))
    | .error e, _ => .error e
    | _, .error e => .error e
  | .boolean =>
    match f.get_bool, rhs.get_bool with
    | .ok x, .ok y => .ok (decide (x < y))
    | .error e, _ => .error e
    | _, .error e => .error e
  | _ => .error .undefined

/-- The member `operator>`: `rhs < *this`. -/
def operator_gt [LT number_t] [DecidableRel (LT.lt : number_t → number_t → Prop)]
    (f rhs : basic_field number_t) : Except failure Bool :=
  rhs.operator_lt f

/-- The member `operator<=`, of the same shape as `operator<`. -/
def operator_le [LE number_t] [DecidableRel (LE.le : number_t → number_t → Prop)]
    (f rhs : basic_field number_t) : Except failure Bool :=
  match f.type_ with
  | .null => .ok true
  | .number =>
    match f.get_number, rhs.get_number with
    | .ok x, .ok y => .ok (decide (x ≤ y))
    | .error e, _ => .error e
    | _, .error e => .error e
  | .string =>
    match f.get_string, rhs.get_string with
    | .ok x, .ok y => .ok (decide (x ≤ y))
    | .error e, _ => .error e
    | _, .error e => .error e
  | .boolean =>
    match f.get_bool, rhs.get_bool with
    | .ok x, .ok y => .ok (decide (x ≤ y))
    | .error e, _ => .error e
    | _, .error e => .error e
  | _ => .error .undefined

/-- The member `operator>=`: `rhs <= *this`. -/
def operator_ge [LE number_t] [DecidableRel (LE.le : number_t → number_t → Prop)]
    (f rhs : basic_field number_t) : Except failure Bool :=
  rhs.operator_le f

/-- The calls `f.emplace_back(v_0); f.emplace_back(v_1); ...` made in turn, each value
moved in: the state of `f` after the last of them. -/
def emplace_back_all [Zero number_t] (f : basic_field number_t) :
    List (basic_field number_t) → basic_field number_t
  | [] => f
  | v :: vs => emplace_back_all (f.emplace_back v).2 vs

/-- The kind/payload invariant of one field: `payload_` is set and the member it holds is
the one of the tag, a live cell for object, array, string and number, the inline boolean
for boolean, and the null pointer that `payload(field_type::null)` stores for null. -/
def payload_matches (f : basic_field number_t) : Bool :=
  match f.type_, f.payload_ with
  | .object, some (.object_ (some _)) => true
  | .array, some (.array_ (some _)) => true
  | .string, some (.string_ (some _)) => true
  | .number, some (.number_ (some _)) => true
  | .boolean, some (.boolean_ _) => true
  | .null, some (.object_ none) => true
  | _, _ => false

/-- The invariant of a whole value tree: the field's payload matches its kind, the entries
of an object are in strictly increasing key order, and the same holds of every field
stored in an array or an object. -/
inductive well_formed : basic_field number_t → Prop
  | null : well_formed (mk .null (some (.object_ none)))
  | boolean (b : Bool) : well_formed (mk .boolean (some (.boolean_ b)))
  | number (x : number_t) : well_formed (mk .number (some (.number_ (some x))))
  | string (s : string_t) : well_formed (mk .string (some (.string_ (some s))))
  | array (a : List (basic_field number_t)) :
      (∀ c, c ∈ a → well_formed c) → well_formed (mk .array (some (.array_ (some a))))
  | object (m : List (string_t × basic_field number_t)) :
      basic_map_t.ordered m → (∀ e, e ∈ m → well_formed e.2) →
      well_formed (mk .object (some (.object_ (some m))))

/-- The fields a program can hold: those the constructors return, and those a public
member function leaves behind or hands out when called on such fields. A mutating member
contributes the state of the field after the call, whether the call succeeded or stopped;
the move constructor contributes the new field and the moved-from source; `at` contributes
the stored field it refers to. The predicates, `empty`, `size` and the comparisons are
`const` and return no field, so they contribute nothing. -/
inductive reachable [Zero number_t] : basic_field number_t → Prop
  | ctor_field_type (t : field_type) (f : basic_field number_t) :
      basic_field.ctor_field_type t = .ok f → reachable f
  | ctor_nullptr (f : basic_field number_t) : basic_field.ctor_nullptr = .ok f → reachable f
  | ctor_bool (b : Bool) : reachable (basic_field.ctor_bool b)
  | ctor_number (x : number_t) : reachable (basic_field.ctor_number x)
  | ctor_string (s : string_t) : reachable (basic_field.ctor_string s)
  | move_to (a b src : basic_field number_t) :
      reachable a → basic_field.ctor_move a = .ok (b, src) → reachable b
  | move_from (a b src : basic_field number_t) :
      reachable a → basic_field.ctor_move a = .ok (b, src) → reachable src
  | emplace (f : basic_field number_t) (k : string_t) (v : basic_field number_t) :
      reachable f → reachable v → reachable (f.emplace k v).2
  | emplace_back (f v : basic_field number_t) :
      reachable f → reachable v → reachable (f.emplace_back v).2
  | erase (f : basic_field number_t) (k : string_t) : reachable f → reachable (f.erase k).2
  | clear (f : basic_field number_t) : reachable f → reachable f.clear.2
  | at_key (f : basic_field number_t) (k : string_t) (c : basic_field number_t) :
      reachable f → f.at_key k = .ok c → reachable c
  | at_index (f : basic_field number_t) (n : Nat) (c : basic_field number_t) :
      reachable f → f.at_index n = .ok c → reachable c

end basic_field

/-! ## Destruction -/

/-- What a destructor run does, in the order it does it. -/
inductive event (number_t : Type)
  /-- A heap cell for kind `t` obtained through `create<AllocatorType, T>`. -/
  | create (t : field_type)
  /-- The heap cell of kind `t` destroyed and deallocated by the switch that ends
  `payload::destroy`. -/
  | release (t : field_type)
  /-- The destructor `~basic_field` entered on `f` while `depth` calls of
  `payload::destroy` are running. -/
  | destructor (depth : Nat) (f : basic_field number_t)
  /-- A call `payload::destroy(t)` entered; `level` counts the calls of `payload::destroy`
  then running, this one included. -/
  | destroy (level : Nat) (t : field_type)
  /-- An iteration of the while loop of the `level`-th running call of `payload::destroy`:
  `current_item` as it was moved out of `stack.back()`. -/
  | pop (level : Nat) (current_item : basic_field number_t)
  /-- The while loop of the `level`-th running call of `payload::destroy` left, with the
  worklist as it then was. -/
  | loop_end (level : Nat) (stack : List (basic_field number_t))

/-- The outcome of destructor code run with bounded fuel: `none` when the fuel ran out,
otherwise the failure that stopped it or the events of the complete run. -/
abbrev outcome (number_t : Type) := Option (Except failure (List (event number_t)))

namespace outcome

variable {number_t : Type}

/-- Sequencing: the second part runs after the first has completed. -/
def and_then (a b : outcome number_t) : outcome number_t :=
  match a with
  | none => none
  | some (.error e) => some (.error e)
  | some (.ok t₁) =>
    match b with
    | none => none
    | some (.error e) => some (.error e)
    | some (.ok t₂) => some (.ok (t₁ ++ t₂))

/-- A completed run with the events `evs`. -/
def events (evs : List (event number_t)) : outcome number_t := some (.ok evs)

/-- A run stopped by the failure `e`. -/
def stopped (e : failure) : outcome number_t := some (.error e)

/-- The parts run one after the other. -/
def seq : List (outcome number_t) → outcome number_t
  | [] => events []
  | a :: rest => and_then a (seq rest)

end outcome

namespace payload

variable {number_t : Type}

/-- The cells the constructor `payload(field_type t)` obtains through `create`. -/
def of_field_type_events (t : field_type) : List (event number_t) :=
  match t with
  | .object => [.create .object]
  | .array => [.create .array]
  | .string => [.create .string]
  | .number => [.create .number]
  | .boolean => []
  | .null => []

end payload

namespace basic_field

variable {number_t : Type}

mutual
/-- The number of fields of a value tree: the field itself and every field stored in it
or below it. -/
def nodes : basic_field number_t → Nat
  | mk _ (some (.array_ (some a))) => 1 + nodes_vector a
  | mk _ (some (.object_ (some m))) => 1 + nodes_map m
  | mk _ _ => 1
/-- The number of fields of the value trees stored in a vector. -/
def nodes_vector : List (basic_field number_t) → Nat
  | [] => 0
  | c :: cs => nodes c + nodes_vector cs
/-- The number of fields of the value trees stored in a map. -/
def nodes_map : List (string_t × basic_field number_t) → Nat
  | [] => 0
  | e :: es => nodes e.2 + nodes_map es
end

/-- The fields stored in a field: the elements of an array, the mapped values of an object
in key order, none for the other kinds. -/
def stored_fields (f : basic_field number_t) : List (basic_field number_t) :=
  match f.type_, f.payload_ with
  | .array, some (.array_ (some a)) => a
  | .object, some (.object_ (some m)) => m.map Prod.snd
  | _, _ => []

/-- A field that holds no field: it is null, a Boolean, a Number or a String, or it is an
array or an object whose container is empty. -/
def holds_no_field (f : basic_field number_t) : Prop :=
  f.is_null = true ∨ f.is_bool = true ∨ f.is_number = true ∨ f.is_string = true ∨
    ((f.is_array = true ∨ f.is_object = true) ∧ f.size = .ok 0)

mutual
/-- The proper descendants of a field: every field stored in it or below it, each as the
value tree it is. -/
def descendants : basic_field number_t → List (basic_field number_t)
  | mk _ (some (.array_ (some a))) => descendants_vector a
  | mk _ (some (.object_ (some m))) => descendants_map m
  | mk _ _ => []
/-- The fields stored in a vector, each followed by its proper descendants. -/
def descendants_vector : List (basic_field number_t) → List (basic_field number_t)
  | [] => []
  | c :: cs => c :: (descendants c ++ descendants_vector cs)
/-- The fields stored in a map, each followed by its proper descendants. -/
def descendants_map : List (string_t × basic_field number_t) → List (basic_field number_t)
  | [] => []
  | e :: es => e.2 :: (descendants e.2 ++ descendants_map es)
end

/-- The items the loop iterations among the events popped, in the order they were
popped. -/
def popped (tr : List (event number_t)) : List (basic_field number_t) :=
  tr.filterMap (fun e => match e with
    | .pop _ current_item => some current_item
    | _ => none)

/-- The number of loop iterations among the events. -/
def pops (tr : List (event number_t)) : Nat := (popped tr).length

/-- The number of cells obtained among the events. -/
def creates (tr : List (event number_t)) : Nat :=
  tr.countP (fun e => match e with
    | .create _ => true
    | _ => false)

/-- The number of cells released among the events. -/
def releases (tr : List (event number_t)) : Nat :=
  tr.countP (fun e => match e with
    | .release _ => true
    | _ => false)

/-- The cell the constructors `basic_field(const string_t &)` and
`basic_field(const char *)` obtain: `string_ = create<AllocatorType, string_t>(value)`. -/
def ctor_string_events : List (event number_t) := [.create .string]

/-- The cells a move construction obtains: `other.payload_.reset(new payload(number))`
builds a number cell, `other.payload_.reset(new payload(null))` builds none. Each `reset`
deletes the union it replaces with `default_delete`, which runs no `payload::destroy`. -/
def ctor_move_events : List (event number_t) :=
  payload.of_field_type_events .number ++ payload.of_field_type_events .null

/-- The algorithm `std::move(first, last, std::back_inserter(stack))` and the loop
`for (auto &&it : ...) stack.push_back(std::move(it.second))` over the fields `xs`: each
is move-constructed onto the worklist. The result is the new fields in the order they
were pushed, the moved-from sources left in the container, and the cells obtained. -/
def move_all [Zero number_t] : List (basic_field number_t) →
    Except failure (List (basic_field number_t) × List (basic_field number_t)
      × List (event number_t))
  | [] => .ok ([], [], [])
  | x :: xs =>
    match ctor_move x with
    | .error e => .error e
    | .ok (y, src) =>
      match move_all xs with
      | .error e => .error e
      | .ok (ys, srcs, evs) => .ok (y :: ys, src :: srcs, ctor_move_events ++ evs)

/-- The first block of `payload::destroy(t)`: the fields of the root's container are moved
onto the worklist. The result is the worklist, last element first, the moved-from
fields the container is left holding, and the cells obtained. -/
def fill [Zero number_t] (p : payload (basic_field number_t) number_t) (t : field_type) :
    Except failure (List (basic_field number_t) × List (basic_field number_t)
      × List (event number_t)) :=
  if t = .array then
    match p with
    | .array_ (some a) =>
      match move_all a with
      | .error e => .error e
      | .ok (moved, srcs, evs) => .ok (moved.reverse, srcs, evs)
    | _ => .error .undefined
  else if t = .object then
    match p with
    | .object_ (some m) =>
      match move_all (m.map Prod.snd) with
      | .error e => .error e
      | .ok (moved, srcs, evs) => .ok (moved.reverse, srcs, evs)
    | _ => .error .undefined
  else .ok ([], [], [])

/-- The `if (current_item.is_array()) ... else if (current_item.is_object()) ...` of the
loop body: the fields stored in `current_item` are moved onto the worklist and its
container is cleared. The result is the fields pushed, in the order they were pushed,
the moved-from fields that `clear()` destroys, `current_item` afterwards, and the cells
obtained. -/
def unpack [Zero number_t] (current_item : basic_field number_t) :
    Except failure (List (basic_field number_t) × List (basic_field number_t)
      × basic_field number_t × List (event number_t)) :=
  if current_item.is_array then
    match current_item.payload_ with
    | some (.array_ (some a)) =>
      match move_all a with
      | .error e => .error e
      | .ok (moved, srcs, evs) =>
        .ok (moved, srcs, mk current_item.type_ (some (.array_ (some []))), evs)
    | _ => .error .undefined
  else if current_item.is_object then
    match current_item.payload_ with
    | some (.object_ (some m)) =>
      match move_all (m.map Prod.snd) with
      | .error e => .error e
      | .ok (moved, srcs, evs) =>
        .ok (moved, srcs, mk current_item.type_ (some (.object_ (some []))), evs)
    | _ => .error .undefined
  else .ok ([], [], current_item, [])

mutual
/-- The destructor `~basic_field`, entered while `depth` calls of `payload::destroy` are
running: `assert_invariant(); payload_->destroy(type_); payload_.reset();`. -/
def destructor [Zero number_t] : Nat → Nat → basic_field number_t → outcome number_t
  | 0, _, _ => none
  | fuel + 1, depth, f =>
    if !f.assert_invariant then outcome.stopped .contract_violation
    else
      match f.payload_ with
      | none => outcome.stopped .undefined
      | some p =>
        outcome.seq [outcome.events [event.destructor depth f],
          destroy fuel (depth + 1) p f.type_]
/-- The member `payload::destroy(t)` of the payload `p`, as the `level`-th running call of
it: the worklist is filled, the loop runs, and the switch destroys and deallocates the
cell of kind `t`; destroying a container cell destroys the fields left in it. -/
def destroy [Zero number_t] : Nat → Nat → payload (basic_field number_t) number_t →
    field_type → outcome number_t
  | 0, _, _, _ => none
  | fuel + 1, level, p, t =>
    match fill p t with
    | .error e => outcome.stopped e
    | .ok (stack, left, evs) =>
      outcome.seq [outcome.events (event.destroy level t :: evs),
        loop fuel level stack,
        match t with
        | .object =>
          outcome.seq [outcome.seq (left.map (fun g => destructor fuel level g)),
            outcome.events [event.release .object]]
        | .array =>
          outcome.seq [outcome.seq (left.map (fun g => destructor fuel level g)),
            outcome.events [event.release .array]]
        | .string =>
          match p with
          | .string_ (some _) => outcome.events [event.release .string]
          | _ => outcome.stopped .undefined
        | .number =>
          match p with
          | .number_ (some _) => outcome.events [event.release .number]
          | _ => outcome.stopped .undefined
        | _ => outcome.events []]
/-- The loop `while (not stack.empty())` of a call of `payload::destroy` that is the
`level`-th running one; `stack` is the worklist, last element first. A `push_back` that
has to grow the worklist move-constructs its slots into the new buffer and destroys the
moved-from slots; when that happens is up to the growth policy of `basic_vector_t`, which
the source does not fix, and these moves and destructor calls, all of them on moved-from
null fields, are not among the events. -/
def loop [Zero number_t] : Nat → Nat → List (basic_field number_t) → outcome number_t
  | 0, _, _ => none
  | _ + 1, level, [] => outcome.events [event.loop_end level []]
  | fuel + 1, level, back :: rest =>
    -- basic_field current_item(std::move(stack.back()));
    match ctor_move back with
    | .error e => outcome.stopped e
    | .ok (current_item, slot) =>
      match unpack current_item with
      | .error e => outcome.stopped e
      | .ok (pushed, cleared, emptied_item, evs) =>
        outcome.seq [outcome.events (event.pop level current_item :: ctor_move_events),
          -- stack.pop_back();
          destructor fuel level slot,
          -- the moves onto the worklist, then clear()
          outcome.events evs,
          outcome.seq (cleared.map (fun g => destructor fuel level g)),
          -- the end of the scope of current_item
          destructor fuel level emptied_item,
          loop fuel level (pushed.reverse ++ rest)]
end

end basic_field

namespace basic_field

variable {number_t : Type}

/-- The state the move constructor leaves its source in: null, with the payload
`payload(field_type::null)` builds. -/
def moved_from : basic_field number_t := mk .null (some (.object_ none))

/-- A field after the loop body has moved its stored fields out and cleared its
container; a field of another kind is left as it is. -/
def cleared_item (f : basic_field number_t) : basic_field number_t :=
  match f.type_, f.payload_ with
  | .array, some (.array_ (some _)) => mk .array (some (.array_ (some [])))
  | .object, some (.object_ (some _)) => mk .object (some (.object_ (some [])))
  | _, _ => f

/-- The cell the switch that ends `payload::destroy(t)` releases. -/
def release_events (t : field_type) : List (event number_t) :=
  match t with
  | .object => [.release .object]
  | .array => [.release .array]
  | .string => [.release .string]
  | .number => [.release .number]
  | _ => []

/-- The events of the destructor on a field that holds no field, entered while `depth`
calls of `payload::destroy` are running: its `payload::destroy` fills nothing, its loop
ends at once, and its cell, if it has one, is released. -/
def leaf_events (depth : Nat) (f : basic_field number_t) : List (event number_t) :=
  [.destructor depth f, .destroy (depth + 1) f.type_, .loop_end (depth + 1) []]
    ++ release_events f.type_

end basic_field

namespace event

variable {number_t : Type}

/-- An event that belongs to the `level`-th running call of `payload::destroy` without
going deeper than one destructor: a loop iteration or the loop's end at that level, a
destructor entered from that call on a field that holds no field, the `payload::destroy`
of such a field, whose loop ends at once, or a cell obtained or released. -/
def within (level : Nat) : event number_t → Prop
  | .destructor depth f => depth = level ∧ f.holds_no_field
  | .destroy l _ => l = level + 1
  | .pop l _ => l = level
  | .loop_end l stack => (l = level ∨ l = level + 1) ∧ stack = []
  | .create _ => True
  | .release _ => True

end event

end friedrichdb.core

/-! ## The document (`header/friedrichdb/document.hpp`) -/

namespace friedrichdb

/-- The type `object` of document.hpp: `using object = std::string`. -/
abbrev object := String

/-- The type `tuple_storage`: `std::vector<object>`. -/
abbrev tuple_storage := List object

/-- The struct `manager`: the slot of a key and the key itself. -/
structure manager where
  position : Nat
  name : String

/-- The class `document`: the index `std::map<std::string, manager>`, modelled like
`basic_map_t` by its entries in key order, and the stored values `storage_`. -/
structure document where
  index : core.basic_map_t manager
  storage_ : tuple_storage

namespace document

/-- The constructor `document() = default`: an empty index and no stored value. -/
def ctor_default : document :=
  { index := [], storage_ := [] }

/-- The member `emplace(key, args...)`: `storage_.emplace_back(args...)`, then
`index.emplace(key, manager(key, storage_.size() - 1))`; `value` is the string the
arguments construct. -/
def emplace (d : document) (key : String) (value : object) : document :=
  let storage_ : tuple_storage := d.storage_ ++ [value]
  { index := core.basic_map_t.emplace key (manager.mk (storage_.length - 1) key) d.index,
    storage_ := storage_ }

/-- The member `at(const std::string &key)`: `storage_.at(index.at(key).position)`. -/
def at_key (d : document) (key : String) : Except core.failure object :=
  match core.basic_map_t.find key d.index with
  | none => .error .out_of_range
  | some m =>
    match d.storage_.get? m.position with
    | some v => .ok v
    | none => .error .out_of_range

/-- The member `at(std::size_t key)`: `storage_.at(key)`. -/
def at_index (d : document) (key : Nat) : Except core.failure object :=
  match d.storage_.get? key with
  | some v => .ok v
  | none => .error .out_of_range

/-- The calls `d.emplace(k_0, v_0); d.emplace(k_1, v_1); ...` made in turn: the document
after the last of them. -/
def emplace_all (d : document) (ops : List (String × object)) : document :=
  ops.foldl (fun acc e => acc.emplace e.1 e.2) d

end document

end friedrichdb

namespace friedrichdb.core

/-! ## Lemmas on the ordered map -/

namespace basic_map_t

variable {V : Type}

theorem find_emplace_self (k : string_t) (v : V) (m : basic_map_t V) :
    find k (emplace k v m) = some ((find k m).getD v) := by
  induction m with
  | nil => simp [emplace, find]
  | cons e rest ih =>
    obtain ⟨k', v'⟩ := e
    rcases lt_trichotomy k' k with h | h | h
    · simp [emplace, find, h, ih]
    · subst h
      simp [emplace, find]
    · have h' : ¬ k' < k := not_lt_of_gt h
      simp [emplace, find, h, h']

theorem find_emplace_of_ne (k k' : string_t) (v : V) (m : basic_map_t V) (hne : k' ≠ k) :
    find k' (emplace k v m) = find k' m := by
  induction m with
  | nil =>
    rcases lt_trichotomy k k' with h | h | h
    · simp [emplace, find, h]
    · exact absurd h.symm hne
    · simp [emplace, find, h, not_lt_of_gt h]
  | cons e rest ih =>
    obtain ⟨k0, v0⟩ := e
    rcases lt_trichotomy k0 k with h | h | h
    · simp only [emplace, if_pos h, find, ih]
    · subst h
      simp [emplace]
    · have h' : ¬ k0 < k := not_lt_of_gt h
      simp only [emplace, if_neg h', if_pos h]
      rcases lt_trichotomy k k' with g | g | g
      · simp [find, g]
      · exact absurd g.symm hne
      · have g' : ¬ k < k' := not_lt_of_gt g
        have g0 : k' < k0 := lt_trans g h
        have g0' : ¬ k0 < k' := not_lt_of_gt g0
        simp [find, g, g', g0, g0']

theorem emplace_of_find_some (k : string_t) (v old : V) (m : basic_map_t V)
    (h : find k m = some old) : emplace k v m = m := by
  induction m with
  | nil => simp [find] at h
  | cons e rest ih =>
    obtain ⟨k0, v0⟩ := e
    rcases lt_trichotomy k0 k with g | g | g
    · simp only [find, if_pos g] at h
      simp [emplace, g, ih h]
    · subst g
      simp [emplace]
    · have g' : ¬ k0 < k := not_lt_of_gt g
      simp [find, g, g'] at h

theorem length_emplace_of_find_none (k : string_t) (v : V) (m : basic_map_t V)
    (h : find k m = none) : (emplace k v m).length = m.length + 1 := by
  induction m with
  | nil => simp [emplace]
  | cons e rest ih =>
    obtain ⟨k0, v0⟩ := e
    rcases lt_trichotomy k0 k with g | g | g
    · simp only [find, if_pos g] at h
      simp [emplace, g, ih h]
    · subst g
      simp [find] at h
    · have g' : ¬ k0 < k := not_lt_of_gt g
      simp [emplace, g, g']

theorem erase_of_find_none (k : string_t) (m : basic_map_t V) (h : find k m = none) :
    erase k m = m := by
  induction m with
  | nil => rfl
  | cons e rest ih =>
    obtain ⟨k0, v0⟩ := e
    rcases lt_trichotomy k0 k with g | g | g
    · simp only [find, if_pos g] at h
      simp [erase, g, ih h]
    · subst g
      simp [find] at h
    · have g' : ¬ k0 < k := not_lt_of_gt g
      simp [erase, g, g']

theorem find_of_lt_head (k k0 : string_t) (v0 : V) (rest : basic_map_t V)
    (h : ordered ((k0, v0) :: rest)) (hk : k < k0) : find k rest = none := by
  cases rest with
  | nil => rfl
  | cons e tl =>
    obtain ⟨k1, v1⟩ := e
    have h01 : k0 < k1 := (List.pairwise_cons.mp h).1 (k1, v1) (List.mem_cons_self _ _)
    have h1 : k < k1 := lt_trans hk h01
    simp [find, h1, not_lt_of_gt h1]

theorem find_of_eq_head (k : string_t) (v0 : V) (rest : basic_map_t V)
    (h : ordered ((k, v0) :: rest)) : find k rest = none := by
  cases rest with
  | nil => rfl
  | cons e tl =>
    obtain ⟨k1, v1⟩ := e
    have h1 : k < k1 := (List.pairwise_cons.mp h).1 (k1, v1) (List.mem_cons_self _ _)
    simp [find, h1, not_lt_of_gt h1]

theorem ordered_tail (e : string_t × V) (rest : basic_map_t V) (h : ordered (e :: rest)) :
    ordered rest := (List.pairwise_cons.mp h).2

theorem find_erase_self (k : string_t) (m : basic_map_t V) (h : ordered m) :
    find k (erase k m) = none := by
  induction m with
  | nil => rfl
  | cons e rest ih =>
    obtain ⟨k0, v0⟩ := e
    rcases lt_trichotomy k0 k with g | g | g
    · simp [erase, find, g, ih (ordered_tail _ _ h)]
    · subst g
      simp only [erase, lt_irrefl, if_false]
      exact find_of_eq_head k0 v0 rest h
    · have g' : ¬ k0 < k := not_lt_of_gt g
      simp [erase, find, g, g']

theorem find_erase_of_ne (k k' : string_t) (m : basic_map_t V) (h : ordered m)
    (hne : k' ≠ k) : find k' (erase k m) = find k' m := by
  induction m with
  | nil => rfl
  | cons e rest ih =>
    obtain ⟨k0, v0⟩ := e
    rcases lt_trichotomy k0 k with g | g | g
    · simp only [erase, if_pos g, find, ih (ordered_tail _ _ h)]
    · subst g
      simp only [erase, lt_irrefl, if_false]
      rcases lt_trichotomy k0 k' with c | c | c
      · simp [find, c]
      · exact absurd c.symm hne
      · simp [find, c, not_lt_of_gt c, find_of_lt_head k' k0 v0 rest h c]
    · have g' : ¬ k0 < k := not_lt_of_gt g
      simp [erase, g, g']

theorem mem_emplace (k : string_t) (v : V) (m : basic_map_t V) (e : string_t × V)
    (h : e ∈ emplace k v m) : e = (k, v) ∨ e ∈ m := by
  induction m with
  | nil => simpa [emplace] using h
  | cons e0 rest ih =>
    obtain ⟨k0, v0⟩ := e0
    rcases lt_trichotomy k0 k with g | g | g
    · simp only [emplace, if_pos g, List.mem_cons] at h
      rcases h with h | h
      · exact Or.inr (by simp [h])
      · rcases ih h with h | h
        · exact Or.inl h
        · exact Or.inr (List.mem_cons_of_mem _ h)
    · subst g
      simp only [emplace, lt_irrefl, if_false] at h
      exact Or.inr h
    · have g' : ¬ k0 < k := not_lt_of_gt g
      simp only [emplace, if_neg g', if_pos g, List.mem_cons] at h
      rcases h with h | h
      · exact Or.inl h
      · exact Or.inr (by simpa using h)

theorem mem_erase (k : string_t) (m : basic_map_t V) (e : string_t × V)
    (h : e ∈ erase k m) : e ∈ m := by
  induction m with
  | nil => simp [erase] at h
  | cons e0 rest ih =>
    obtain ⟨k0, v0⟩ := e0
    rcases lt_trichotomy k0 k with g | g | g
    · simp only [erase, if_pos g, List.mem_cons] at h
      rcases h with h | h
      · simp [h]
      · exact List.mem_cons_of_mem _ (ih h)
    · subst g
      simp only [erase, lt_irrefl, if_false] at h
      exact List.mem_cons_of_mem _ h
    · have g' : ¬ k0 < k := not_lt_of_gt g
      simpa [erase, g, g'] using h

theorem ordered_emplace (k : string_t) (v : V) (m : basic_map_t V) (h : ordered m) :
    ordered (emplace k v m) := by
  induction m with
  | nil => simp [emplace, ordered]
  | cons e0 rest ih =>
    obtain ⟨k0, v0⟩ := e0
    rcases lt_trichotomy k0 k with g | g | g
    · simp only [emplace, if_pos g]
      refine List.pairwise_cons.mpr ⟨?_, ih (ordered_tail _ _ h)⟩
      intro e he
      rcases mem_emplace k v rest e he with he | he
      · simpa [he] using g
      · exact (List.pairwise_cons.mp h).1 e he
    · subst g
      simpa [emplace] using h
    · have g' : ¬ k0 < k := not_lt_of_gt g
      simp only [emplace, if_neg g', if_pos g]
      refine List.pairwise_cons.mpr ⟨?_, h⟩
      intro e he
      rcases List.mem_cons.mp he with he | he
      · simpa [he] using g
      · exact lt_trans g ((List.pairwise_cons.mp h).1 e he)

theorem ordered_erase (k : string_t) (m : basic_map_t V) (h : ordered m) :
    ordered (erase k m) := by
  induction m with
  | nil => simpa [erase] using h
  | cons e0 rest ih =>
    obtain ⟨k0, v0⟩ := e0
    rcases lt_trichotomy k0 k with g | g | g
    · simp only [erase, if_pos g]
      refine List.pairwise_cons.mpr ⟨?_, ih (ordered_tail _ _ h)⟩
      intro e he
      exact (List.pairwise_cons.mp h).1 e (mem_erase k rest e he)
    · subst g
      simpa [erase] using ordered_tail _ _ h
    · have g' : ¬ k0 < k := not_lt_of_gt g
      simpa [erase, g, g'] using h

theorem find_eq_some_iff (k : string_t) (v : V) (m : basic_map_t V) (h : ordered m) :
    find k m = some v ↔ (k, v) ∈ m := by
  induction m with
  | nil => simp [find]
  | cons e0 rest ih =>
    obtain ⟨k0, v0⟩ := e0
    have hall := (List.pairwise_cons.mp h).1
    rcases lt_trichotomy k0 k with g | g | g
    · simp only [find, if_pos g, ih (ordered_tail _ _ h), List.mem_cons, Prod.mk.injEq]
      constructor
      · exact fun hm => Or.inr hm
      · rintro (⟨hk, _⟩ | hm)
        · exact absurd hk.symm (ne_of_lt g)
        · exact hm
    · subst g
      simp only [find, lt_irrefl, if_false, List.mem_cons, Prod.mk.injEq, true_and,
        Option.some.injEq]
      constructor
      · exact fun hv => Or.inl hv.symm
      · rintro (hv | hm)
        · exact hv.symm
        · exact absurd (hall _ hm) (lt_irrefl _)
    · have g' : ¬ k0 < k := not_lt_of_gt g
      simp only [find, if_neg g', if_pos g, List.mem_cons, Prod.mk.injEq]
      constructor
      · intro hn
        cases hn
      · rintro (⟨hk, _⟩ | hm)
        · exact absurd hk (ne_of_lt g)
        · exact absurd (lt_trans g (hall _ hm)) (lt_irrefl _)

end basic_map_t

/-! ## Lemmas on the constructors -/

namespace basic_field

variable {number_t : Type}

theorem mk_type_payload (f : basic_field number_t) : mk f.type_ f.payload_ = f := by
  cases f; rfl

theorem assert_invariant_moved_from [Zero number_t] (t : field_type) :
    (mk t (some (payload.of_field_type field_type.number)) :
      basic_field number_t).assert_invariant = true := by
  cases t <;> rfl

theorem ctor_move_eq [Zero number_t] (v : basic_field number_t) :
    ctor_move v =
      if v.assert_invariant then .ok (v, mk .null (some (.object_ none)))
      else .error .contract_violation := by
  cases v with
  | mk t p =>
    simp only [ctor_move, type_, payload_, assert_invariant_moved_from]
    by_cases h : (mk t p : basic_field number_t).assert_invariant = true
    · simp [h, payload.of_field_type]
    · simp [h]

theorem ctor_nullptr_eq [Zero number_t] :
    (ctor_nullptr : Except failure (basic_field number_t)) =
      .ok (mk .null (some (.object_ none))) := rfl

theorem assert_invariant_promoted [Zero number_t] (t : field_type) :
    (mk t (some (payload.of_field_type t)) : basic_field number_t).assert_invariant = true := by
  cases t <;> rfl

theorem emplace_of_null [Zero number_t]
    (p : Option (payload (basic_field number_t) number_t)) (k : string_t)
    (v : basic_field number_t) (hv : v.assert_invariant = true) :
    (mk .null p : basic_field number_t).emplace k v =
      (.ok (), mk .object (some (.object_ (some [(k, v)])))) := by
  simp only [emplace, is_null, is_object, type_, assert_invariant_promoted, ctor_move_eq,
    if_pos hv]
  rfl

theorem emplace_of_object [Zero number_t] (m : basic_map_t (basic_field number_t))
    (k : string_t) (v : basic_field number_t) (hv : v.assert_invariant = true) :
    (mk .object (some (.object_ (some m))) : basic_field number_t).emplace k v =
      (.ok (), mk .object (some (.object_ (some (basic_map_t.emplace k v m))))) := by
  simp only [emplace, is_null, is_object, type_, ctor_move_eq, if_pos hv]
  rfl

theorem emplace_back_of_null [Zero number_t]
    (p : Option (payload (basic_field number_t) number_t))
    (v : basic_field number_t) (hv : v.assert_invariant = true) :
    (mk .null p : basic_field number_t).emplace_back v =
      (.ok (), mk .array (some (.array_ (some [v])))) := by
  simp only [emplace_back, is_null, is_array, type_, assert_invariant_promoted, ctor_move_eq,
    if_pos hv]
  rfl

theorem emplace_back_of_array [Zero number_t] (a : basic_vector_t (basic_field number_t))
    (v : basic_field number_t) (hv : v.assert_invariant = true) :
    (mk .array (some (.array_ (some a))) : basic_field number_t).emplace_back v =
      (.ok (), mk .array (some (.array_ (some (a ++ [v]))))) := by
  simp only [emplace_back, is_null, is_array, type_, ctor_move_eq, if_pos hv]
  rfl

theorem at_key_of_object (m : basic_map_t (basic_field number_t)) (k : string_t) :
    (mk .object (some (.object_ (some m))) : basic_field number_t).at_key k =
      match basic_map_t.find k m with
      | some v => .ok v
      | none => .error .out_of_range := rfl

theorem at_index_of_array (a : basic_vector_t (basic_field number_t)) (n : Nat) :
    (mk .array (some (.array_ (some a))) : basic_field number_t).at_index n =
      match a.get? n with
      | some v => .ok v
      | none => .error .out_of_range := rfl

theorem eq_of_get_object (f : basic_field number_t) (m : basic_map_t (basic_field number_t))
    (h : f.get_object = .ok m) : f = mk .object (some (.object_ (some m))) := by
  cases f with
  | mk t p =>
    unfold get_object at h
    simp only [type_, payload_] at h
    split at h
    · cases h
    · rename_i ht
      have ht' : t = field_type.object := not_not.mp ht
      subst ht'
      split at h
      · cases h; rfl
      · cases h

theorem eq_of_get_array (f : basic_field number_t) (a : basic_vector_t (basic_field number_t))
    (h : f.get_array = .ok a) : f = mk .array (some (.array_ (some a))) := by
  cases f with
  | mk t p =>
    unfold get_array at h
    simp only [type_, payload_] at h
    split at h
    · cases h
    · rename_i ht
      have ht' : t = field_type.array := not_not.mp ht
      subst ht'
      split at h
      · cases h; rfl
      · cases h

theorem assert_invariant_of_payload_matches (f : basic_field number_t)
    (h : f.payload_matches = true) : f.assert_invariant = true := by
  cases f with
  | mk t p =>
    cases t <;> rcases p with _ | (p | p | p | p | p) <;> try (rcases p with _ | p)
    all_goals first
      | rfl
      | (exfalso; revert h; simp [payload_matches, type_, payload_])

theorem erase_of_object (m : basic_map_t (basic_field number_t)) (k : string_t) :
    (mk .object (some (.object_ (some m))) : basic_field number_t).erase k =
      (.ok (), mk .object (some (.object_ (some (basic_map_t.erase k m))))) := rfl

end basic_field

/-! ## Move construction and promotion -/

namespace basic_field

variable {number_t : Type}

/-- C2 (move safety). For every field `a` that passes `assert_invariant`, the move
constructor succeeds, the new field has the tag and the payload `a` had, and the
moved-from source is null, has size 0, is empty, is the very value a fresh `Field()`
has, and compares equal to it. -/
theorem move_safety [Zero number_t] [BEq number_t] (a : basic_field number_t)
    (h : a.assert_invariant = true) :
    ∃ b src fresh, ctor_move a = .ok (b, src) ∧ b = a ∧
      b.type_ = a.type_ ∧ b.payload_ = a.payload_ ∧
      src.is_null = true ∧ src.size = .ok 0 ∧ src.empty = .ok true ∧
      ctor_nullptr = .ok fresh ∧ src = fresh ∧ src.operator_eq fresh = .ok true := by
  refine ⟨a, mk .null (some (.object_ none)), mk .null (some (.object_ none)), ?_⟩
  rw [ctor_move_eq, if_pos h]
  exact ⟨rfl, rfl, rfl, rfl, rfl, rfl, rfl, rfl, rfl, rfl⟩

/-- A witness of `move_safety`: the String field "x" is moved. -/
theorem move_safety_witness :
    (ctor_string "x" : basic_field Int).assert_invariant = true ∧
    ∃ b src fresh, ctor_move (ctor_string "x" : basic_field Int) = .ok (b, src) ∧
      b = ctor_string "x" ∧
      b.type_ = (ctor_string "x" : basic_field Int).type_ ∧
      b.payload_ = (ctor_string "x" : basic_field Int).payload_ ∧
      src.is_null = true ∧ src.size = .ok 0 ∧ src.empty = .ok true ∧
      ctor_nullptr = .ok fresh ∧ src = fresh ∧ src.operator_eq fresh = .ok true :=
  ⟨rfl, move_safety (ctor_string "x") rfl⟩

/-- C3 (promotion law for emplace). For every null field `f`, key `k` and value `v`
that passes `assert_invariant`, `f.emplace(k, v)` succeeds and leaves an object of
size 1 in which `at(k)` succeeds and returns `v`. -/
theorem promotion_emplace [Zero number_t] (f : basic_field number_t) (k : string_t)
    (v : basic_field number_t) (hf : f.is_null = true) (hv : v.assert_invariant = true) :
    (f.emplace k v).1 = .ok () ∧ (f.emplace k v).2.is_object = true ∧
      (f.emplace k v).2.size = .ok 1 ∧ (f.emplace k v).2.at_key k = .ok v := by
  cases f with
  | mk t p =>
    have ht : t = field_type.null := by simpa [is_null, type_] using hf
    subst ht
    rw [emplace_of_null p k v hv]
    refine ⟨rfl, rfl, rfl, ?_⟩
    simp [at_key_of_object, basic_map_t.find]

/-- A witness of `promotion_emplace`: the scenario `Field f; f.emplace("a", Field(42))`. -/
theorem promotion_emplace_witness :
    ((mk .null (some (.object_ none)) : basic_field Int).emplace "a" (ctor_number 42)).1
        = .ok () ∧
      ((mk .null (some (.object_ none)) : basic_field Int).emplace "a"
        (ctor_number 42)).2.is_object = true ∧
      ((mk .null (some (.object_ none)) : basic_field Int).emplace "a"
        (ctor_number 42)).2.size = .ok 1 ∧
      ((mk .null (some (.object_ none)) : basic_field Int).emplace "a"
        (ctor_number 42)).2.at_key "a" = .ok (ctor_number 42) :=
  promotion_emplace (mk .null (some (.object_ none))) "a" (ctor_number 42) rfl rfl

/-- C4 (promotion law for emplace_back). For every null field `f` and value `v` that
passes `assert_invariant`, `f.emplace_back(v)` succeeds and leaves an array of size 1
in which `at(0)` succeeds and returns `v`. -/
theorem promotion_emplace_back [Zero number_t] (f : basic_field number_t)
    (v : basic_field number_t) (hf : f.is_null = true) (hv : v.assert_invariant = true) :
    (f.emplace_back v).1 = .ok () ∧ (f.emplace_back v).2.is_array = true ∧
      (f.emplace_back v).2.size = .ok 1 ∧ (f.emplace_back v).2.at_index 0 = .ok v := by
  cases f with
  | mk t p =>
    have ht : t = field_type.null := by simpa [is_null, type_] using hf
    subst ht
    rw [emplace_back_of_null p v hv]
    exact ⟨rfl, rfl, rfl, rfl⟩

/-- A witness of `promotion_emplace_back`: `Field f; f.emplace_back(Field("x"))`. -/
theorem promotion_emplace_back_witness :
    ((mk .null (some (.object_ none)) : basic_field Int).emplace_back (ctor_string "x")).1
        = .ok () ∧
      ((mk .null (some (.object_ none)) : basic_field Int).emplace_back
        (ctor_string "x")).2.is_array = true ∧
      ((mk .null (some (.object_ none)) : basic_field Int).emplace_back
        (ctor_string "x")).2.size = .ok 1 ∧
      ((mk .null (some (.object_ none)) : basic_field Int).emplace_back
        (ctor_string "x")).2.at_index 0 = .ok (ctor_string "x") :=
  promotion_emplace_back (mk .null (some (.object_ none))) (ctor_string "x") rfl rfl

end basic_field

/-! ## Object and array contents -/

namespace basic_field

variable {number_t : Type}

theorem at_key_ok_iff (m : basic_map_t (basic_field number_t)) (k : string_t)
    (c : basic_field number_t) :
    (mk .object (some (.object_ (some m))) : basic_field number_t).at_key k = .ok c ↔
      basic_map_t.find k m = some c := by
  rw [at_key_of_object]
  cases basic_map_t.find k m <;> simp

theorem at_key_out_of_range_iff (m : basic_map_t (basic_field number_t)) (k : string_t) :
    (mk .object (some (.object_ (some m))) : basic_field number_t).at_key k
        = .error .out_of_range ↔ basic_map_t.find k m = none := by
  rw [at_key_of_object]
  cases basic_map_t.find k m <;> simp

theorem emplace_back_all_of_array [Zero number_t] (vs : List (basic_field number_t))
    (a : basic_vector_t (basic_field number_t))
    (hvs : ∀ x ∈ vs, x.assert_invariant = true) :
    emplace_back_all (mk .array (some (.array_ (some a)))) vs =
      mk .array (some (.array_ (some (a ++ vs)))) := by
  induction vs generalizing a with
  | nil => simp [emplace_back_all]
  | cons v vs ih =>
    have hv : v.assert_invariant = true := hvs v (List.mem_cons_self _ _)
    have hrest : ∀ x ∈ vs, x.assert_invariant = true :=
      fun x hx => hvs x (List.mem_cons_of_mem _ hx)
    simp only [emplace_back_all, emplace_back_of_array a v hv, ih (a ++ [v]) hrest]
    simp

/-- C5, refuted as stated. After `Field f; f.emplace("k", Field(1))` the field is the
object with the one entry "k" -> 1; on it `emplace("k", Field(2))` succeeds, and afterwards
`at("k")` still returns the Number 1, which is not the Number 2 (structurally, and by
`operator==`). -/
theorem emplace_existing_key_counterexample :
    ((mk .null (some (.object_ none)) : basic_field Int).emplace "k" (ctor_number 1)).2 =
        mk .object (some (.object_ (some [("k", ctor_number 1)]))) ∧
      (mk .object (some (.object_ (some [("k", ctor_number 1)]))) : basic_field Int).at_key "k"
        = .ok (ctor_number 1) ∧
      ((mk .object (some (.object_ (some [("k", ctor_number 1)]))) : basic_field Int).emplace
        "k" (ctor_number 2)).1 = .ok () ∧
      ((mk .object (some (.object_ (some [("k", ctor_number 1)]))) : basic_field Int).emplace
        "k" (ctor_number 2)).2.at_key "k" = .ok (ctor_number 1) ∧
      ((mk .object (some (.object_ (some [("k", ctor_number 1)]))) : basic_field Int).emplace
        "k" (ctor_number 2)).2.at_key "k" ≠ .ok (ctor_number 2) ∧
      (ctor_number 1 : basic_field Int).operator_eq (ctor_number 2) = .ok false := by
  rw [emplace_of_null (some (.object_ none)) "k" (ctor_number 1) rfl,
    emplace_of_object [("k", ctor_number 1)] "k" (ctor_number 2) rfl]
  simp [at_key_of_object, basic_map_t.find, basic_map_t.emplace, ctor_number]
  rfl

/-- C5, amended. For every object field `f` in which `at(k)` returns `old`, and every
value `v` that passes `assert_invariant`, `f.emplace(k, v)` succeeds and leaves `f` as it
was: `at(k)` still returns `old`, the size is unchanged and every key maps to the value it
had before. -/
theorem emplace_existing_key_keeps [Zero number_t] (f : basic_field number_t) (k : string_t)
    (old v : basic_field number_t) (hk : f.at_key k = .ok old)
    (hv : v.assert_invariant = true) :
    (f.emplace k v).1 = .ok () ∧ (f.emplace k v).2 = f ∧
      (f.emplace k v).2.at_key k = .ok old ∧ (f.emplace k v).2.size = f.size ∧
      ∀ k', (f.emplace k v).2.at_key k' = f.at_key k' := by
  have hobj : ∃ m, f.get_object = .ok m := by
    unfold at_key at hk
    cases hg : f.get_object with
    | error e => rw [hg] at hk; cases hk
    | ok m => exact ⟨m, rfl⟩
  obtain ⟨m, hm⟩ := hobj
  have hf := eq_of_get_object f m hm
  subst hf
  have hfind : basic_map_t.find k m = some old := (at_key_ok_iff m k old).mp hk
  have hsame : (mk .object (some (.object_ (some m))) : basic_field number_t).emplace k v
      = (.ok (), mk .object (some (.object_ (some m)))) := by
    rw [emplace_of_object m k v hv, basic_map_t.emplace_of_find_some k v old m hfind]
  rw [hsame]
  exact ⟨rfl, rfl, hk, rfl, fun _ => rfl⟩

/-- A witness of `emplace_existing_key_keeps`: the object `{"k": 1}` and the value 2. -/
theorem emplace_existing_key_keeps_witness :
    ((mk .object (some (.object_ (some [("k", ctor_number 1)]))) : basic_field Int).emplace
        "k" (ctor_number 2)).2.at_key "k" = .ok (ctor_number 1) :=
  (emplace_existing_key_keeps
    (mk .object (some (.object_ (some [("k", ctor_number 1)])))) "k" (ctor_number 1)
    (ctor_number 2) (by simp [at_key_of_object, basic_map_t.find]) rfl).2.2.1

/-- C6 (array append keeps insertion order). For every array field `f` with elements `a`
and every value `v` that passes `assert_invariant`, `f.emplace_back(v)` succeeds, the size
becomes `a.length + 1`, `at(a.length)` returns `v` and `at(i)` is unchanged for every
`i < a.length`. Hence appending the values `vs` in turn to a null field `n` gives size
`vs.length` with `at(i)` returning the `i`-th value for every `i < vs.length`. -/
theorem array_append_order [Zero number_t] (f : basic_field number_t)
    (a : basic_vector_t (basic_field number_t)) (v : basic_field number_t)
    (n : basic_field number_t) (vs : List (basic_field number_t))
    (hf : f.get_array = .ok a) (hv : v.assert_invariant = true)
    (hn : n.is_null = true) (hvs : ∀ x ∈ vs, x.assert_invariant = true) :
    ((f.emplace_back v).1 = .ok () ∧ f.size = .ok a.length ∧
      (f.emplace_back v).2.size = .ok (a.length + 1) ∧
      (f.emplace_back v).2.at_index a.length = .ok v ∧
      ∀ i, i < a.length → (f.emplace_back v).2.at_index i = f.at_index i) ∧
    ((n.emplace_back_all vs).size = .ok vs.length ∧
      ∀ i (h : i < vs.length), (n.emplace_back_all vs).at_index i = .ok (vs.get ⟨i, h⟩)) := by
  constructor
  · have hfa := eq_of_get_array f a hf
    subst hfa
    rw [emplace_back_of_array a v hv]
    refine ⟨rfl, rfl, ?_, ?_, ?_⟩
    · simp [size, type_, get_array, payload_]
    · simp [at_index_of_array]
    · intro i hi
      simp [at_index_of_array, List.getElem?_append_left hi]
  · cases n with
    | mk t p =>
      have ht : t = field_type.null := by simpa [is_null, type_] using hn
      subst ht
      cases vs with
      | nil => exact ⟨rfl, fun i h => absurd h (Nat.not_lt_zero i)⟩
      | cons w ws =>
        have hw : w.assert_invariant = true := hvs w (List.mem_cons_self _ _)
        have hws : ∀ x ∈ ws, x.assert_invariant = true :=
          fun x hx => hvs x (List.mem_cons_of_mem _ hx)
        simp only [emplace_back_all, emplace_back_of_null p w hw,
          emplace_back_all_of_array ws [w] hws]
        refine ⟨by simp [size, type_, get_array, payload_], ?_⟩
        intro i h
        simp [at_index_of_array, List.getElem?_eq_getElem h]

/-- A witness of `array_append_order`: `Field f; f.emplace_back(Field("x"));
f.emplace_back(Field("y"))` gives size 2 and `at(1)` the String "y". -/
theorem array_append_order_witness :
    ((mk .null (some (.object_ none)) : basic_field Int).emplace_back_all
        [ctor_string "x", ctor_string "y"]).size = .ok 2 ∧
      ((mk .null (some (.object_ none)) : basic_field Int).emplace_back_all
        [ctor_string "x", ctor_string "y"]).at_index 1 = .ok (ctor_string "y") :=
  have h := (array_append_order
    (mk .array (some (.array_ (some [ctor_string "x"])))) [ctor_string "x"] (ctor_string "y")
    (mk .null (some (.object_ none)) : basic_field Int) [ctor_string "x", ctor_string "y"]
    rfl rfl rfl (by intro x hx; simp at hx; rcases hx with rfl | rfl <;> rfl)).2
  ⟨h.1, h.2 1 (by decide)⟩

/-- C7 (erase on an object field). For every object field `f` whose entries `m` are in
key order, `f.erase(k)` succeeds; afterwards `at(k)` fails with out-of-range, every other
key maps to the value it had before, the kind is still object, and if `k` was absent
beforehand the field is unchanged. In particular a null field `n` after `emplace(k, v)` and
`erase(k)` is empty. -/
theorem erase_object [Zero number_t] (f : basic_field number_t)
    (m : basic_map_t (basic_field number_t)) (k : string_t)
    (n v : basic_field number_t)
    (hf : f.get_object = .ok m) (hm : basic_map_t.ordered m)
    (hn : n.is_null = true) (hv : v.assert_invariant = true) :
    (f.erase k).1 = .ok () ∧
      (f.erase k).2.at_key k = .error .out_of_range ∧
      (∀ k', k' ≠ k → (f.erase k).2.at_key k' = f.at_key k') ∧
      (f.erase k).2.is_object = true ∧
      (f.at_key k = .error .out_of_range → (f.erase k).2 = f) ∧
      (((n.emplace k v).2.erase k).1 = .ok () ∧
        ((n.emplace k v).2.erase k).2.empty = .ok true ∧
        ((n.emplace k v).2.erase k).2.is_object = true) := by
  have hfm := eq_of_get_object f m hf
  subst hfm
  rw [erase_of_object]
  refine ⟨rfl, ?_, ?_, rfl, ?_, ?_⟩
  · exact (at_key_out_of_range_iff _ k).mpr (basic_map_t.find_erase_self k m hm)
  · intro k' hk'
    rw [at_key_of_object, at_key_of_object, basic_map_t.find_erase_of_ne k k' m hm hk']
  · intro habs
    rw [basic_map_t.erase_of_find_none k m ((at_key_out_of_range_iff m k).mp habs)]
  · cases n with
    | mk t p =>
      have ht : t = field_type.null := by simpa [is_null, type_] using hn
      subst ht
      rw [emplace_of_null p k v hv, erase_of_object]
      simp [basic_map_t.erase, empty, type_, get_object, payload_, is_object]

/-- A witness of `erase_object`: `Field obj; obj.emplace("k", Field(1)); obj.erase("k")`
leaves an empty object. -/
theorem erase_object_witness :
    (((mk .null (some (.object_ none)) : basic_field Int).emplace "k" (ctor_number 1)).2.erase
        "k").2.empty = .ok true :=
  (erase_object (mk .object (some (.object_ (some [("k", ctor_number 1)])))) 
    [("k", ctor_number 1)] "k" (mk .null (some (.object_ none)) : basic_field Int)
    (ctor_number 1) rfl (by simp [basic_map_t.ordered]) rfl rfl).2.2.2.2.2.2.1

/-- C8 (checked access). `at` is a `const` member and is a function of the field, so no
call of it changes the field. For every object field `f` whose entries `m` are in key
order, `f.at(k)` returns the stored value when an entry of `k` is present and fails with
out-of-range when none is; for every array field `f` with elements `a`, `f.at(n)` returns
the `n`-th element when `n < f.size()` and fails with out-of-range when `n >= f.size()`;
on a field that is not an object (a null field included) `at(k)` fails at the assertion,
and on a field that is not an array `at(n)` does: no value is made up and a null field is
not promoted. -/
theorem checked_access (f : basic_field number_t) (k : string_t) (n : Nat) :
    (∀ m, f.get_object = .ok m → basic_map_t.ordered m →
      (∀ c, (k, c) ∈ m → f.at_key k = .ok c) ∧
      ((∀ c, (k, c) ∉ m) → f.at_key k = .error .out_of_range)) ∧
    (∀ a, f.get_array = .ok a →
      f.size = .ok a.length ∧
      (∀ h : n < a.length, f.at_index n = .ok (a.get ⟨n, h⟩)) ∧
      (a.length ≤ n → f.at_index n = .error .out_of_range)) ∧
    (f.is_object = false → f.at_key k = .error .contract_violation) ∧
    (f.is_array = false → f.at_index n = .error .contract_violation) := by
  refine ⟨?_, ?_, ?_, ?_⟩
  · intro m hf hm
    have hfm := eq_of_get_object f m hf
    subst hfm
    constructor
    · intro c hc
      exact (at_key_ok_iff m k c).mpr ((basic_map_t.find_eq_some_iff k c m hm).mpr hc)
    · intro habs
      refine (at_key_out_of_range_iff m k).mpr ?_
      cases hfind : basic_map_t.find k m with
      | none => rfl
      | some c => exact absurd ((basic_map_t.find_eq_some_iff k c m hm).mp hfind) (habs c)
  · intro a hf
    have hfa := eq_of_get_array f a hf
    subst hfa
    refine ⟨rfl, ?_, ?_⟩
    · intro h
      simp [at_index_of_array, List.getElem?_eq_getElem h]
    · intro h
      simp [at_index_of_array, List.getElem?_eq_none h]
  · intro h
    have ht : f.type_ ≠ field_type.object := by simpa [is_object] using h
    simp [at_key, get_object, ht]
  · intro h
    have ht : f.type_ ≠ field_type.array := by simpa [is_array] using h
    simp [at_index, get_array, ht]

/-- A witness of `checked_access`: in the array `["x", "y"]`, `at(1)` is the String "y"
and `at(2)` is out of range; on a null field `at("k")` fails at the assertion. -/
theorem checked_access_witness :
    (mk .array (some (.array_ (some [ctor_string "x", ctor_string "y"]))) :
        basic_field Int).at_index 1 = .ok (ctor_string "y") ∧
      (mk .array (some (.array_ (some [ctor_string "x", ctor_string "y"]))) :
        basic_field Int).at_index 2 = .error .out_of_range ∧
      (mk .null (some (.object_ none)) : basic_field Int).at_key "k"
        = .error .contract_violation :=
  ⟨((checked_access (mk .array (some (.array_ (some [ctor_string "x", ctor_string "y"]))))
      "k" 1).2.1 [ctor_string "x", ctor_string "y"] rfl).2.1 (by decide),
   ((checked_access (mk .array (some (.array_ (some [ctor_string "x", ctor_string "y"]))))
      "k" 2).2.1 [ctor_string "x", ctor_string "y"] rfl).2.2 (by decide),
   (checked_access (mk .null (some (.object_ none))) "k" 0).2.2.1 rfl⟩

/-! ## Wrong-kind mutation -/

theorem payload_matches_cases (f : basic_field number_t) (h : f.payload_matches = true) :
    (∃ m, f = mk .object (some (.object_ (some m)))) ∨
    (∃ a, f = mk .array (some (.array_ (some a)))) ∨
    (∃ s, f = mk .string (some (.string_ (some s)))) ∨
    (∃ x, f = mk .number (some (.number_ (some x)))) ∨
    (∃ b, f = mk .boolean (some (.boolean_ b))) ∨
    f = mk .null (some (.object_ none)) := by
  cases f with
  | mk t p =>
    cases t <;> rcases p with _ | (p | p | p | p | p) <;> try (rcases p with _ | p)
    all_goals first
      | (exfalso; revert h; simp [payload_matches, type_, payload_]; done)
      | simp

/-- C9 (wrong-kind mutation is rejected). For every field `f` whose payload matches its kind
and every value `v` that passes `assert_invariant`: `emplace` stops at its assertion if
and only if `f` is neither null nor an object, and succeeds otherwise; `emplace_back`
stops at its assertion if and only if `f` is neither null nor an array, and succeeds
otherwise; `erase` stops at the assertion of `get_object` if and only if `f` is not an
object, a null field included, and succeeds otherwise. Whenever one of them does not
succeed, the field is as it was before the call. -/
theorem wrong_kind_mutation [Zero number_t] (f v : basic_field number_t) (k : string_t)
    (hf : f.payload_matches = true) (hv : v.assert_invariant = true) :
    (((f.emplace k v).1 = .error .contract_violation ↔
        (f.is_null = false ∧ f.is_object = false)) ∧
      ((f.emplace k v).1 = .ok () ↔ (f.is_null = true ∨ f.is_object = true)) ∧
      ((f.emplace k v).1 ≠ .ok () → (f.emplace k v).2 = f)) ∧
    (((f.emplace_back v).1 = .error .contract_violation ↔
        (f.is_null = false ∧ f.is_array = false)) ∧
      ((f.emplace_back v).1 = .ok () ↔ (f.is_null = true ∨ f.is_array = true)) ∧
      ((f.emplace_back v).1 ≠ .ok () → (f.emplace_back v).2 = f)) ∧
    (((f.erase k).1 = .error .contract_violation ↔ f.is_object = false) ∧
      ((f.erase k).1 = .ok () ↔ f.is_object = true) ∧
      ((f.erase k).1 ≠ .ok () → (f.erase k).2 = f) ∧
      (f.is_null = true →
        (f.erase k).1 = .error .contract_violation ∧ (f.erase k).2.is_null = true)) := by
  rcases payload_matches_cases f hf with
    ⟨m, rfl⟩ | ⟨a, rfl⟩ | ⟨s, rfl⟩ | ⟨x, rfl⟩ | ⟨b, rfl⟩ | rfl
  · rw [emplace_of_object m k v hv, erase_of_object]
    simp [emplace_back, is_null, is_object, is_array, type_]
  · rw [emplace_back_of_array a v hv]
    simp [emplace, erase, get_object, is_null, is_object, is_array, type_]
  · simp [emplace, emplace_back, erase, get_object, is_null, is_object, is_array, type_]
  · simp [emplace, emplace_back, erase, get_object, is_null, is_object, is_array, type_]
  · simp [emplace, emplace_back, erase, get_object, is_null, is_object, is_array, type_]
  · rw [emplace_of_null _ k v hv, emplace_back_of_null _ v hv]
    simp [erase, get_object, is_null, is_object, is_array, type_]

/-- A witness of `wrong_kind_mutation`: `emplace` on the String field "s" stops at the
assertion and leaves the field as it was. -/
theorem wrong_kind_mutation_witness :
    ((ctor_string "s" : basic_field Int).emplace "k" (ctor_number 1)).1
        = .error .contract_violation ∧
      ((ctor_string "s" : basic_field Int).emplace "k" (ctor_number 1)).2 = ctor_string "s" :=
  have h := (wrong_kind_mutation (ctor_string "s" : basic_field Int) (ctor_number 1) "k"
    rfl rfl).1
  have hfail := h.1.mpr ⟨rfl, rfl⟩
  ⟨hfail, h.2.2 (by rw [hfail]; intro h'; cases h')⟩

/-! ## Equality -/

/-- C10 (equality). For every two fields of differing kinds `==` is false and `!=` is true.
Two null fields are equal; two Number fields are equal exactly when `number_t` equality
holds of their cells, two String fields when the character sequences are the same, two
Boolean fields when the truth values are the same. Whenever `==` gives a Boolean, `!=`
gives its negation, and when `==` gives none neither does `!=`. -/
theorem equality [BEq number_t] (a b : basic_field number_t) :
    (a.type_ ≠ b.type_ → a.operator_eq b = .ok false ∧ a.operator_ne b = .ok true) ∧
    (a.is_null = true → b.is_null = true → a.operator_eq b = .ok true) ∧
    (∀ x y, a.get_number = .ok x → b.get_number = .ok y → a.operator_eq b = .ok (x == y)) ∧
    (∀ s t, a.get_string = .ok s → b.get_string = .ok t →
      a.operator_eq b = .ok (decide (s = t))) ∧
    (∀ p q, a.get_bool = .ok p → b.get_bool = .ok q →
      a.operator_eq b = .ok (decide (p = q))) ∧
    (∀ r, a.operator_eq b = .ok r → a.operator_ne b = .ok (!r)) ∧
    (∀ e, a.operator_eq b = .error e → a.operator_ne b = .error e) := by
  refine ⟨?_, ?_, ?_, ?_, ?_, ?_, ?_⟩
  · intro h
    simp [operator_ne, operator_eq, h]
  · intro ha hb
    have ha' : a.type_ = field_type.null := by simpa [is_null] using ha
    have hb' : b.type_ = field_type.null := by simpa [is_null] using hb
    simp [operator_eq, ha', hb']
  · intro x y hx hy
    have ha : a.type_ = field_type.number := by
      by_contra hne
      simp [get_number, hne] at hx
    have hb : b.type_ = field_type.number := by
      by_contra hne
      simp [get_number, hne] at hy
    simp [operator_eq, ha, hb, hx, hy]
  · intro s t hs ht
    have ha : a.type_ = field_type.string := by
      by_contra hne
      simp [get_string, hne] at hs
    have hb : b.type_ = field_type.string := by
      by_contra hne
      simp [get_string, hne] at ht
    simp only [operator_eq, ha, hb, hs, ht, ne_eq, not_true_eq_false, if_false]
    rfl
  · intro p q hp hq
    have ha : a.type_ = field_type.boolean := by
      by_contra hne
      simp [get_bool, hne] at hp
    have hb : b.type_ = field_type.boolean := by
      by_contra hne
      simp [get_bool, hne] at hq
    simp only [operator_eq, ha, hb, hp, hq, ne_eq, not_true_eq_false, if_false]
    cases p <;> cases q <;> rfl
  · intro r h
    simp [operator_ne, h]
  · intro e h
    simp [operator_ne, h]

/-- A witness of `equality`: `Field(5) == Field(5)` is true and `Field(5) == Field("5")`
is false. -/
theorem equality_witness :
    (ctor_number 5 : basic_field Int).operator_eq (ctor_number 5) = .ok true ∧
      (ctor_number 5 : basic_field Int).operator_eq (ctor_string "5") = .ok false ∧
      (ctor_number 5 : basic_field Int).operator_ne (ctor_string "5") = .ok true :=
  ⟨(equality (ctor_number 5 : basic_field Int) (ctor_number 5)).2.2.1 5 5 rfl rfl,
   ((equality (ctor_number 5 : basic_field Int) (ctor_string "5")).1 (by decide)).1,
   ((equality (ctor_number 5 : basic_field Int) (ctor_string "5")).1 (by decide)).2⟩

/-! ## The kind/payload invariant -/

theorem well_formed.payload_matches {f : basic_field number_t} (h : well_formed f) :
    f.payload_matches = true := by
  cases h <;> rfl

theorem well_formed_ctor_field_type [Zero number_t] (t : field_type) :
    well_formed (mk t (some (payload.of_field_type t)) : basic_field number_t) := by
  cases t
  · exact well_formed.null
  · exact well_formed.boolean false
  · exact well_formed.number 0
  · exact well_formed.string ""
  · exact well_formed.array [] (fun c hc => absurd hc (List.not_mem_nil c))
  · exact well_formed.object [] List.Pairwise.nil (fun e he => absurd he (List.not_mem_nil e))

theorem find_some_mem {V : Type} (k : string_t) (c : V) (m : basic_map_t V)
    (h : basic_map_t.find k m = some c) : ∃ k', (k', c) ∈ m := by
  induction m with
  | nil => simp [basic_map_t.find] at h
  | cons e rest ih =>
    obtain ⟨k0, v0⟩ := e
    simp only [basic_map_t.find] at h
    split at h
    · obtain ⟨k', hk'⟩ := ih h
      exact ⟨k', List.mem_cons_of_mem _ hk'⟩
    · split at h
      · cases h
      · cases h
        exact ⟨k0, List.mem_cons_self _ _⟩

theorem well_formed_emplace [Zero number_t] (f v : basic_field number_t) (k : string_t)
    (hf : well_formed f) (hv : well_formed v) : well_formed (f.emplace k v).2 := by
  have hv' := assert_invariant_of_payload_matches v hv.payload_matches
  cases hf with
  | null =>
    rw [emplace_of_null _ k v hv']
    refine well_formed.object _ (by simp [basic_map_t.ordered]) ?_
    intro e he
    have he' : e = (k, v) := by simpa using he
    rw [he']
    exact hv
  | object m hm hall =>
    rw [emplace_of_object m k v hv']
    refine well_formed.object _ (basic_map_t.ordered_emplace k v m hm) ?_
    intro e he
    rcases basic_map_t.mem_emplace k v m e he with he' | he'
    · rw [he']
      exact hv
    · exact hall e he'
  | boolean b => exact well_formed.boolean b
  | number x => exact well_formed.number x
  | string s => exact well_formed.string s
  | array a hall => exact well_formed.array a hall

theorem well_formed_emplace_back [Zero number_t] (f v : basic_field number_t)
    (hf : well_formed f) (hv : well_formed v) : well_formed (f.emplace_back v).2 := by
  have hv' := assert_invariant_of_payload_matches v hv.payload_matches
  cases hf with
  | null =>
    rw [emplace_back_of_null _ v hv']
    refine well_formed.array _ ?_
    intro c hc
    have hc' : c = v := by simpa using hc
    rw [hc']
    exact hv
  | array a hall =>
    rw [emplace_back_of_array a v hv']
    refine well_formed.array _ ?_
    intro c hc
    rcases List.mem_append.mp hc with hc' | hc'
    · exact hall c hc'
    · have hc'' : c = v := by simpa using hc'
      rw [hc'']
      exact hv
  | boolean b => exact well_formed.boolean b
  | number x => exact well_formed.number x
  | string s => exact well_formed.string s
  | object m hm hall => exact well_formed.object m hm hall

theorem well_formed_erase (f : basic_field number_t) (k : string_t) (hf : well_formed f) :
    well_formed (f.erase k).2 := by
  cases hf with
  | object m hm hall =>
    rw [erase_of_object]
    exact well_formed.object _ (basic_map_t.ordered_erase k m hm)
      (fun e he => hall e (basic_map_t.mem_erase k m e he))
  | null => exact well_formed.null
  | boolean b => exact well_formed.boolean b
  | number x => exact well_formed.number x
  | string s => exact well_formed.string s
  | array a hall => exact well_formed.array a hall

theorem well_formed_clear (f : basic_field number_t) (hf : well_formed f) :
    well_formed f.clear.2 := by
  cases hf with
  | null => exact well_formed.null
  | boolean b => exact well_formed.boolean false
  | number x => exact well_formed.number x
  | string s => exact well_formed.string ""
  | array a hall => exact well_formed.array [] (fun c hc => absurd hc (List.not_mem_nil c))
  | object m hm hall =>
    exact well_formed.object [] List.Pairwise.nil (fun e he => absurd he (List.not_mem_nil e))

theorem well_formed_at_key (f c : basic_field number_t) (k : string_t) (hf : well_formed f)
    (hc : f.at_key k = .ok c) : well_formed c := by
  cases hf with
  | object m hm hall =>
    obtain ⟨k', hk'⟩ := find_some_mem k c m ((at_key_ok_iff m k c).mp hc)
    exact hall (k', c) hk'
  | null => cases hc
  | boolean b => cases hc
  | number x => cases hc
  | string s => cases hc
  | array a hall => cases hc

theorem well_formed_at_index (f c : basic_field number_t) (n : Nat) (hf : well_formed f)
    (hc : f.at_index n = .ok c) : well_formed c := by
  cases hf with
  | array a hall =>
    rw [at_index_of_array] at hc
    cases hget : a.get? n with
    | none => rw [hget] at hc; cases hc
    | some d =>
      rw [hget] at hc
      cases hc
      exact hall c (List.get?_mem hget)
  | null => cases hc
  | boolean b => cases hc
  | number x => cases hc
  | string s => cases hc
  | object m hm hall => cases hc

theorem well_formed_of_reachable [Zero number_t] (f : basic_field number_t)
    (h : reachable f) : well_formed f := by
  induction h with
  | ctor_field_type t f hf =>
    simp only [ctor_field_type, assert_invariant_promoted, if_true] at hf
    cases hf
    exact well_formed_ctor_field_type t
  | ctor_nullptr f hf =>
    rw [ctor_nullptr_eq] at hf
    cases hf
    exact well_formed.null
  | ctor_bool b => exact well_formed.boolean b
  | ctor_number x => exact well_formed.number x
  | ctor_string s => exact well_formed.string s
  | move_to a b src _ hm ih =>
    rw [ctor_move_eq, if_pos (assert_invariant_of_payload_matches a ih.payload_matches)] at hm
    cases hm
    exact ih
  | move_from a b src _ hm ih =>
    rw [ctor_move_eq, if_pos (assert_invariant_of_payload_matches a ih.payload_matches)] at hm
    cases hm
    exact well_formed.null
  | emplace f k v _ _ ihf ihv => exact well_formed_emplace f v k ihf ihv
  | emplace_back f v _ _ ihf ihv => exact well_formed_emplace_back f v ihf ihv
  | erase f k _ ih => exact well_formed_erase f k ih
  | clear f _ ih => exact well_formed_clear f ih
  | at_key f k c _ hc ih => exact well_formed_at_key f c k ih hc
  | at_index f n c _ hc ih => exact well_formed_at_index f c n ih hc

theorem ordered_of_reachable [Zero number_t] (f : basic_field number_t)
    (m : basic_map_t (basic_field number_t)) (h : reachable f) (hm : f.get_object = .ok m) :
    basic_map_t.ordered m := by
  have hf := eq_of_get_object f m hm
  subst hf
  cases well_formed_of_reachable _ h with
  | object _ ho _ => exact ho

/-- C1 (kind/payload invariant). Every field reachable from the constructors by public
operations (move construction, emplace, emplace_back, erase, clear, at), the moved-from
source of a move construction and the fields stored in arrays and objects included, has
the payload that matches its kind: a live object, array, string or number cell for those
kinds, the inline boolean for boolean, and the null pointer for null. Such a field also
passes `assert_invariant`. -/
theorem invariant_preservation [Zero number_t] (f : basic_field number_t)
    (h : reachable f) : f.payload_matches = true ∧ f.assert_invariant = true :=
  ⟨(well_formed_of_reachable f h).payload_matches,
   assert_invariant_of_payload_matches f (well_formed_of_reachable f h).payload_matches⟩

/-- A witness of `invariant_preservation`: the moved-from source after
`Field b(std::move(a))` for `a` the String field "x". -/
theorem invariant_preservation_witness :
    reachable (mk .null (some (.object_ none)) : basic_field Int) ∧
      (mk .null (some (.object_ none)) : basic_field Int).payload_matches = true ∧
      (mk .null (some (.object_ none)) : basic_field Int).assert_invariant = true :=
  have hr : reachable (mk .null (some (.object_ none)) : basic_field Int) :=
    reachable.move_from (ctor_string "x") (ctor_string "x") _
      (reachable.ctor_string "x") rfl
  ⟨hr, invariant_preservation _ hr⟩

/-! ## Ordering -/

/-- C11, evaluated on the code. For every two fields that are both arrays or both objects,
each of `==`, `!=`, `<`, `<=`, `>` and `>=` reaches the end of its function without a
`return`: the outcome is `failure.undefined`, not an error the code raises. -/
theorem composite_comparison_undefined [BEq number_t] [LinearOrder number_t]
    (a b : basic_field number_t)
    (h : (a.is_array = true ∧ b.is_array = true) ∨ (a.is_object = true ∧ b.is_object = true)) :
    a.operator_eq b = .error .undefined ∧ a.operator_ne b = .error .undefined ∧
      a.operator_lt b = .error .undefined ∧ a.operator_le b = .error .undefined ∧
      a.operator_gt b = .error .undefined ∧ a.operator_ge b = .error .undefined := by
  rcases h with ⟨ha, hb⟩ | ⟨ha, hb⟩
  · have ha' : a.type_ = field_type.array := by simpa [is_array] using ha
    have hb' : b.type_ = field_type.array := by simpa [is_array] using hb
    simp [operator_eq, operator_ne, operator_lt, operator_le, operator_gt, operator_ge,
      ha', hb']
  · have ha' : a.type_ = field_type.object := by simpa [is_object] using ha
    have hb' : b.type_ = field_type.object := by simpa [is_object] using hb
    simp [operator_eq, operator_ne, operator_lt, operator_le, operator_gt, operator_ge,
      ha', hb']

/-- A witness of `composite_comparison_undefined`: two empty arrays,
`Field a(field_type::array), b(field_type::array)`. -/
theorem composite_comparison_undefined_witness :
    (mk .array (some (.array_ (some []))) : basic_field Int).operator_eq
        (mk .array (some (.array_ (some [])))) = .error .undefined ∧
      (mk .array (some (.array_ (some []))) : basic_field Int).operator_lt
        (mk .array (some (.array_ (some [])))) = .error .undefined :=
  have h := composite_comparison_undefined
    (mk .array (some (.array_ (some []))) : basic_field Int)
    (mk .array (some (.array_ (some []))) : basic_field Int) (Or.inl ⟨rfl, rfl⟩)
  ⟨h.1, h.2.2.1⟩

/-- C12 (same-kind ordering). For two null fields `<` is false and `<=` is true; for two
Number fields `<` and `<=` are those of `number_t`; for two String fields they are those
of the character sequences, compared lexicographically; for two Boolean fields `<` holds
exactly for false against true, and `<=` fails exactly for true against false. `a > b` is
`b < a` and `a >= b` is `b <= a`. For two fields of the same scalar kind whose payloads
match, `<`, `==` and `<=` all give a Boolean and `a <= b` holds exactly when `a < b` or
`a == b` does; the order of `number_t` is taken to be a linear order and its `==` to
decide equality. -/
theorem same_kind_ordering [BEq number_t] [LawfulBEq number_t] [LinearOrder number_t]
    (a b : basic_field number_t) :
    (a.is_null = true → b.is_null = true →
      a.operator_lt b = .ok false ∧ a.operator_le b = .ok true) ∧
    (∀ x y, a.get_number = .ok x → b.get_number = .ok y →
      a.operator_lt b = .ok (decide (x < y)) ∧ a.operator_le b = .ok (decide (x ≤ y))) ∧
    (∀ s t, a.get_string = .ok s → b.get_string = .ok t →
      a.operator_lt b = .ok (decide (s < t)) ∧ a.operator_le b = .ok (decide (s ≤ t)) ∧
      (s < t ↔ s.toList < t.toList)) ∧
    (∀ p q, a.get_bool = .ok p → b.get_bool = .ok q →
      a.operator_lt b = .ok (!p && q) ∧ a.operator_le b = .ok (!p || q)) ∧
    (a.operator_gt b = b.operator_lt a ∧ a.operator_ge b = b.operator_le a) ∧
    (a.payload_matches = true → b.payload_matches = true → a.type_ = b.type_ →
      a.is_array = false → a.is_object = false →
      ∃ l q, a.operator_lt b = .ok l ∧ a.operator_eq b = .ok q ∧
        a.operator_le b = .ok (l || q)) := by
  refine ⟨?_, ?_, ?_, ?_, ⟨rfl, rfl⟩, ?_⟩
  · intro ha hb
    have ha' : a.type_ = field_type.null := by simpa [is_null] using ha
    simp [operator_lt, operator_le, ha']
  · intro x y hx hy
    have ha : a.type_ = field_type.number := by
      by_contra hne
      simp [get_number, hne] at hx
    simp [operator_lt, operator_le, ha, hx, hy]
  · intro s t hs ht
    have ha : a.type_ = field_type.string := by
      by_contra hne
      simp [get_string, hne] at hs
    refine ⟨?_, ?_, String.lt_iff_toList_lt⟩
    · simp [operator_lt, ha, hs, ht]
    · simp [operator_le, ha, hs, ht]
  · intro p q hp hq
    have ha : a.type_ = field_type.boolean := by
      by_contra hne
      simp [get_bool, hne] at hp
    constructor
    · simp only [operator_lt, ha, hp, hq]
      cases p <;> cases q <;> rfl
    · simp only [operator_le, ha, hp, hq]
      cases p <;> cases q <;> rfl
  · intro ha hb hk harr hobj
    rcases payload_matches_cases a ha with
      ⟨m, rfl⟩ | ⟨v, rfl⟩ | ⟨s, rfl⟩ | ⟨x, rfl⟩ | ⟨p, rfl⟩ | rfl
    · simp [is_object, type_] at hobj
    · simp [is_array, type_] at harr
    · rcases payload_matches_cases b hb with
        ⟨m, rfl⟩ | ⟨v, rfl⟩ | ⟨t, rfl⟩ | ⟨y, rfl⟩ | ⟨q, rfl⟩ | rfl <;>
        simp only [type_] at hk <;> try cases hk
      refine ⟨decide (s < t), decide (s = t), rfl, rfl, ?_⟩
      simp only [operator_le, type_, get_string, payload_]
      simp [le_iff_lt_or_eq]
    · rcases payload_matches_cases b hb with
        ⟨m, rfl⟩ | ⟨v, rfl⟩ | ⟨t, rfl⟩ | ⟨y, rfl⟩ | ⟨q, rfl⟩ | rfl <;>
        simp only [type_] at hk <;> try cases hk
      have hbeq : (x == y) = decide (x = y) := by
        by_cases hxy : x = y <;> simp [hxy]
      refine ⟨decide (x < y), x == y, rfl, rfl, ?_⟩
      simp only [operator_le, type_, get_number, payload_]
      simp [le_iff_lt_or_eq, hbeq]
    · rcases payload_matches_cases b hb with
        ⟨m, rfl⟩ | ⟨v, rfl⟩ | ⟨t, rfl⟩ | ⟨y, rfl⟩ | ⟨q, rfl⟩ | rfl <;>
        simp only [type_] at hk <;> try cases hk
      refine ⟨!p && q, decide (p = q), ?_, ?_, ?_⟩
      · cases p <;> cases q <;> rfl
      · cases p <;> cases q <;> rfl
      · cases p <;> cases q <;> rfl
    · rcases payload_matches_cases b hb with
        ⟨m, rfl⟩ | ⟨v, rfl⟩ | ⟨t, rfl⟩ | ⟨y, rfl⟩ | ⟨q, rfl⟩ | rfl <;>
        simp only [type_] at hk <;> try cases hk
      exact ⟨false, true, rfl, rfl, rfl⟩

/-- A witness of `same_kind_ordering`: `Field(3) < Field(5)` is true and
`Field(5) <= Field(3)` is false. -/
theorem same_kind_ordering_witness :
    (ctor_number 3 : basic_field Int).operator_lt (ctor_number 5) = .ok true ∧
      (ctor_number 5 : basic_field Int).operator_le (ctor_number 3) = .ok false :=
  ⟨((same_kind_ordering (ctor_number 3 : basic_field Int) (ctor_number 5)).2.1 3 5
      rfl rfl).1,
   ((same_kind_ordering (ctor_number 5 : basic_field Int) (ctor_number 3)).2.1 5 3
      rfl rfl).2⟩

/-- C13, refuted as stated. With a null left operand and a Number right operand the kinds
differ, yet `<` returns false and `<=` returns true; so `Field(5) > Field()` returns
false and `Field(5) >= Field()` returns true. -/
theorem ordering_null_left_counterexample :
    (mk .null (some (.object_ none)) : basic_field Int).type_
        ≠ (ctor_number 5 : basic_field Int).type_ ∧
      (mk .null (some (.object_ none)) : basic_field Int).operator_lt (ctor_number 5)
        = .ok false ∧
      (mk .null (some (.object_ none)) : basic_field Int).operator_le (ctor_number 5)
        = .ok true ∧
      (ctor_number 5 : basic_field Int).operator_gt (mk .null (some (.object_ none)))
        = .ok false ∧
      (ctor_number 5 : basic_field Int).operator_ge (mk .null (some (.object_ none)))
        = .ok true :=
  ⟨by decide, rfl, rfl, rfl, rfl⟩

/-- C13, amended. The ordering operators look at the tag of their left operand only and
leave the tag of the other operand to the assertion of its accessor. For every two fields
`a` and `b` of differing kinds: when `a` is a Boolean, Number or String whose payload
matches, `a < b` and `a <= b`, and so `b > a` and `b >= a`, stop at that assertion; when
`a` is null, `a < b` is false and `a <= b` is true whatever `b` is, and so `b > a` is
false and `b >= a` is true. -/
theorem ordering_differing_kinds [LinearOrder number_t] (a b : basic_field number_t)
    (hk : a.type_ ≠ b.type_) :
    (a.payload_matches = true →
      (a.is_bool = true ∨ a.is_number = true ∨ a.is_string = true) →
      a.operator_lt b = .error .contract_violation ∧
      a.operator_le b = .error .contract_violation ∧
      b.operator_gt a = .error .contract_violation ∧
      b.operator_ge a = .error .contract_violation) ∧
    (a.is_null = true →
      a.operator_lt b = .ok false ∧ a.operator_le b = .ok true ∧
      b.operator_gt a = .ok false ∧ b.operator_ge a = .ok true) := by
  constructor
  · intro ha hs
    obtain ⟨tb, pb⟩ := b
    rcases payload_matches_cases a ha with
      ⟨m, rfl⟩ | ⟨v, rfl⟩ | ⟨s, rfl⟩ | ⟨x, rfl⟩ | ⟨p, rfl⟩ | rfl
    · simp [is_bool, is_number, is_string, type_] at hs
    · simp [is_bool, is_number, is_string, type_] at hs
    · have hb : tb ≠ field_type.string := fun h => hk (by simp [type_, h])
      simp [operator_lt, operator_le, operator_gt, operator_ge, type_, get_string, payload_, hb]
    · have hb : tb ≠ field_type.number := fun h => hk (by simp [type_, h])
      simp [operator_lt, operator_le, operator_gt, operator_ge, type_, get_number, payload_, hb]
    · have hb : tb ≠ field_type.boolean := fun h => hk (by simp [type_, h])
      simp [operator_lt, operator_le, operator_gt, operator_ge, type_, get_bool, payload_, hb]
    · simp [is_bool, is_number, is_string, type_] at hs
  · intro ha
    have ha' : a.type_ = field_type.null := by simpa [is_null] using ha
    simp [operator_lt, operator_le, operator_gt, operator_ge, ha']

/-- A witness of `ordering_differing_kinds`: `Field(5) < Field("5")` stops at the
assertion of `get_number` on the String operand. -/
theorem ordering_differing_kinds_witness :
    (ctor_number 5 : basic_field Int).operator_lt (ctor_string "5")
        = .error .contract_violation :=
  ((ordering_differing_kinds (ctor_number 5 : basic_field Int) (ctor_string "5")
    (by decide)).1 rfl (Or.inr (Or.inl rfl))).1

/-! ## Size, clear and construction -/

/-- C14 (`empty()` and `size()` by kind). For every field `f`: if `f` is null, `empty()` is
true and `size()` is 0; if `f` is an array or an object holding `a` or `m`, `size()` is the
number of elements or keys and `empty()` is true exactly when that number is 0; if `f` is
a Boolean, Number or String (whatever the string), `empty()` is false and `size()` is 1.
So for every field whose payload matches its kind, `empty()` is `size() == 0`. -/
theorem empty_size_by_kind (f : basic_field number_t) :
    (f.is_null = true → f.empty = .ok true ∧ f.size = .ok 0) ∧
    (∀ a, f.get_array = .ok a →
      f.size = .ok a.length ∧ f.empty = .ok (decide (a.length = 0))) ∧
    (∀ m, f.get_object = .ok m →
      f.size = .ok m.length ∧ f.empty = .ok (decide (m.length = 0))) ∧
    ((f.is_bool = true ∨ f.is_number = true ∨ f.is_string = true) →
      f.empty = .ok false ∧ f.size = .ok 1) ∧
    (f.payload_matches = true → ∃ n, f.size = .ok n ∧ f.empty = .ok (decide (n = 0))) := by
  refine ⟨?_, ?_, ?_, ?_, ?_⟩
  · intro h
    have ht : f.type_ = field_type.null := by simpa [is_null] using h
    simp [empty, size, ht]
  · intro a ha
    have hf := eq_of_get_array f a ha
    subst hf
    refine ⟨rfl, ?_⟩
    cases a <;> rfl
  · intro m hm
    have hf := eq_of_get_object f m hm
    subst hf
    refine ⟨rfl, ?_⟩
    cases m <;> rfl
  · intro h
    rcases h with h | h | h
    · have ht : f.type_ = field_type.boolean := by simpa [is_bool] using h
      simp [empty, size, ht]
    · have ht : f.type_ = field_type.number := by simpa [is_number] using h
      simp [empty, size, ht]
    · have ht : f.type_ = field_type.string := by simpa [is_string] using h
      simp [empty, size, ht]
  · intro h
    rcases payload_matches_cases f h with
      ⟨m, rfl⟩ | ⟨a, rfl⟩ | ⟨s, rfl⟩ | ⟨x, rfl⟩ | ⟨p, rfl⟩ | rfl
    · exact ⟨m.length, rfl, by cases m <;> rfl⟩
    · exact ⟨a.length, rfl, by cases a <;> rfl⟩
    · exact ⟨1, rfl, rfl⟩
    · exact ⟨1, rfl, rfl⟩
    · exact ⟨1, rfl, rfl⟩
    · exact ⟨0, rfl, rfl⟩

/-- A witness of `empty_size_by_kind`: the empty String field is not empty and has size 1;
the array of two strings has size 2. -/
theorem empty_size_by_kind_witness :
    (ctor_string "" : basic_field Int).empty = .ok false ∧
      (ctor_string "" : basic_field Int).size = .ok 1 ∧
      (mk .array (some (.array_ (some [ctor_string "x", ctor_string "y"]))) :
        basic_field Int).size = .ok 2 :=
  ⟨((empty_size_by_kind (ctor_string "" : basic_field Int)).2.2.2.1
      (Or.inr (Or.inr rfl))).1,
   ((empty_size_by_kind (ctor_string "" : basic_field Int)).2.2.2.1
      (Or.inr (Or.inr rfl))).2,
   ((empty_size_by_kind (mk .array (some (.array_ (some [ctor_string "x", ctor_string "y"]))) :
      basic_field Int)).2.1 [ctor_string "x", ctor_string "y"] rfl).1⟩

/-- C15 (`clear()` resets contents and keeps the kind). For every field `f` whose payload
matches its kind, `f.clear()` succeeds and keeps the kind; afterwards a Boolean field is
`Field(false)`, a String field is `Field("")`, an array or object has size 0 and is
empty, and a Number or null field is as it was. Clearing twice gives the same field as
clearing once. -/
theorem clear_resets_contents (f : basic_field number_t) (hf : f.payload_matches = true) :
    f.clear.1 = .ok () ∧ f.clear.2.type_ = f.type_ ∧
      (f.is_bool = true → f.clear.2 = ctor_bool false) ∧
      (f.is_string = true → f.clear.2 = ctor_string "") ∧
      ((f.is_array = true ∨ f.is_object = true) →
        f.clear.2.size = .ok 0 ∧ f.clear.2.empty = .ok true) ∧
      ((f.is_number = true ∨ f.is_null = true) → f.clear.2 = f) ∧
      f.clear.2.clear.2 = f.clear.2 ∧ f.clear.2.clear.1 = .ok () := by
  rcases payload_matches_cases f hf with
    ⟨m, rfl⟩ | ⟨a, rfl⟩ | ⟨s, rfl⟩ | ⟨x, rfl⟩ | ⟨p, rfl⟩ | rfl
  · refine ⟨rfl, rfl, ?_, ?_, fun _ => ⟨rfl, rfl⟩, ?_, rfl, rfl⟩ <;>
      simp [is_bool, is_string, is_number, is_null, type_]
  · refine ⟨rfl, rfl, ?_, ?_, fun _ => ⟨rfl, rfl⟩, ?_, rfl, rfl⟩ <;>
      simp [is_bool, is_string, is_number, is_null, type_]
  · refine ⟨rfl, rfl, ?_, fun _ => rfl, ?_, ?_, rfl, rfl⟩ <;>
      simp [is_bool, is_array, is_object, is_number, is_null, type_]
  · refine ⟨rfl, rfl, ?_, ?_, ?_, fun _ => rfl, rfl, rfl⟩ <;>
      simp [is_bool, is_string, is_array, is_object, type_]
  · refine ⟨rfl, rfl, fun _ => rfl, ?_, ?_, ?_, rfl, rfl⟩ <;>
      simp [is_string, is_array, is_object, is_number, is_null, type_]
  · refine ⟨rfl, rfl, ?_, ?_, ?_, fun _ => rfl, rfl, rfl⟩ <;>
      simp [is_bool, is_string, is_array, is_object, type_]

/-- A witness of `clear_resets_contents`: clearing `Field(true)` gives `Field(false)`, and
clearing `Field(7)` leaves it. -/
theorem clear_resets_contents_witness :
    (ctor_bool true : basic_field Int).clear.2 = ctor_bool false ∧
      (ctor_number 7 : basic_field Int).clear.2 = ctor_number 7 :=
  ⟨(clear_resets_contents (ctor_bool true : basic_field Int) rfl).2.2.1 rfl,
   (clear_resets_contents (ctor_number 7 : basic_field Int) rfl).2.2.2.2.2.1 (Or.inl rfl)⟩

/-- C16 (construction fixes the kind and the default payload). `Field()`, which is
`Field(nullptr)`, is null with size 0 and empty. `Field(kind)` succeeds with exactly that
kind; for object and array its size is 0; for string, number and boolean it is
`Field("")`, `Field(0)` and `Field(false)`. A field built from a bool is Boolean, from an
arithmetic value Number, from a string String, and each matches its payload. For every
field exactly one of `is_null`, `is_bool`, `is_number`, `is_string`, `is_array`,
`is_object` is true. -/
theorem construction [Zero number_t] (t : field_type) (b : Bool) (x : number_t)
    (s : string_t) (f : basic_field number_t) :
    (∃ n : basic_field number_t, ctor_nullptr = .ok n ∧ n.is_null = true ∧
      n.size = .ok 0 ∧ n.empty = .ok true) ∧
    (∃ g : basic_field number_t, ctor_field_type t = .ok g ∧ g.type_ = t ∧
      g.payload_matches = true ∧
      ((t = field_type.object ∨ t = field_type.array) →
        g.size = .ok 0 ∧ g.empty = .ok true)) ∧
    (ctor_field_type field_type.string = .ok (ctor_string "" : basic_field number_t) ∧
      ctor_field_type field_type.number = .ok (ctor_number 0 : basic_field number_t) ∧
      ctor_field_type field_type.boolean = .ok (ctor_bool false : basic_field number_t)) ∧
    ((ctor_bool b : basic_field number_t).is_bool = true ∧
      (ctor_bool b : basic_field number_t).payload_matches = true ∧
      (ctor_number x).is_number = true ∧ (ctor_number x).payload_matches = true ∧
      (ctor_string s : basic_field number_t).is_string = true ∧
      (ctor_string s : basic_field number_t).payload_matches = true) ∧
    ([f.is_null, f.is_bool, f.is_number, f.is_string, f.is_array, f.is_object].count true
      = 1) := by
  refine ⟨⟨mk .null (some (.object_ none)), rfl, rfl, rfl, rfl⟩, ?_, ⟨rfl, rfl, rfl⟩,
    ⟨rfl, rfl, rfl, rfl, rfl, rfl⟩, ?_⟩
  · refine ⟨mk t (some (payload.of_field_type t)), ?_, rfl, ?_, ?_⟩
    · simp [ctor_field_type, assert_invariant_promoted]
    · cases t <;> rfl
    · rintro (h | h) <;> subst h <;> exact ⟨rfl, rfl⟩
  · obtain ⟨tf, pf⟩ := f
    cases tf <;> rfl

end basic_field

end friedrichdb.core

/-! ## The document: key-to-slot mapping -/

namespace friedrichdb.document

open friedrichdb.core

/-- C18 (document key-to-slot mapping). For every document `d` whose index points only at
stored values, and every key `k` not yet in `d`: after `d.emplace(k, v)` the keyed lookup
`at(k)` and the positional lookup `at(n)`, `n` the number of values stored before, both
return `v`; every other key and every position below `n` gives what it gave before;
`at(k')` for a key `k'` that is in neither index, and `at(i)` for `i` beyond the stored
values, fail with out-of-range. -/
theorem document_emplace_lookup (d : document) (k : String) (v : object)
    (hk : basic_map_t.find k d.index = none)
    (hd : ∀ k' m, basic_map_t.find k' d.index = some m → m.position < d.storage_.length) :
    (d.emplace k v).at_key k = .ok v ∧
      (d.emplace k v).at_index d.storage_.length = .ok v ∧
      (d.emplace k v).storage_.length = d.storage_.length + 1 ∧
      (∀ k', k' ≠ k → (d.emplace k v).at_key k' = d.at_key k') ∧
      (∀ i, i < d.storage_.length → (d.emplace k v).at_index i = d.at_index i) ∧
      (∀ k', k' ≠ k → basic_map_t.find k' d.index = none →
        (d.emplace k v).at_key k' = .error .out_of_range) ∧
      (∀ i, d.storage_.length < i → (d.emplace k v).at_index i = .error .out_of_range) := by
  refine ⟨?_, ?_, ?_, ?_, ?_, ?_, ?_⟩
  · simp [at_key, emplace, basic_map_t.find_emplace_self, hk]
  · simp [at_index, emplace]
  · simp [emplace]
  · intro k' hne
    simp only [at_key, emplace, basic_map_t.find_emplace_of_ne k k' _ d.index hne]
    cases hfind : basic_map_t.find k' d.index with
    | none => rfl
    | some m =>
      have hpos := hd k' m hfind
      simp [List.getElem?_append_left hpos]
  · intro i hi
    simp [at_index, emplace, List.getElem?_append_left hi]
  · intro k' hne hnone
    simp [at_key, emplace, basic_map_t.find_emplace_of_ne k k' _ d.index hne, hnone]
  · intro i hi
    have hlen : (d.storage_ ++ [v]).length ≤ i := by simp; omega
    simp [at_index, emplace, List.getElem?_eq_none hlen]

/-- A witness of `document_emplace_lookup`: the empty document, the key "a" and the
value "1". -/
theorem document_emplace_lookup_witness :
    (ctor_default.emplace "a" "1").at_key "a" = .ok "1" ∧
      (ctor_default.emplace "a" "1").at_index 0 = .ok "1" ∧
      (ctor_default.emplace "a" "1").at_key "b" = .error .out_of_range ∧
      (ctor_default.emplace "a" "1").at_index 1 = .error .out_of_range :=
  have h := document_emplace_lookup ctor_default "a" "1" rfl
    (by intro k' m hm; simp [ctor_default, basic_map_t.find] at hm)
  ⟨h.1, h.2.1, h.2.2.2.2.2.1 "b" (by decide) rfl, h.2.2.2.2.2.2 1 (by decide)⟩

end friedrichdb.document

/-! ## Destruction: the worklist teardown -/

namespace friedrichdb.core

namespace outcome

variable {number_t : Type}

theorem and_then_events (a b : List (event number_t)) :
    and_then (events a) (events b) = events (a ++ b) := rfl

theorem seq_cons_events (a : List (event number_t)) (rest : List (outcome number_t))
    (b : List (event number_t)) (h : seq rest = events b) :
    seq (events a :: rest) = events (a ++ b) := by
  simp only [seq, h, and_then_events]

end outcome

namespace basic_field

variable {number_t : Type}

theorem nodes_vector_append (xs ys : List (basic_field number_t)) :
    nodes_vector (xs ++ ys) = nodes_vector xs + nodes_vector ys := by
  induction xs with
  | nil => simp [nodes_vector]
  | cons x xs ih => simp [nodes_vector, ih, Nat.add_assoc]

theorem nodes_vector_reverse (xs : List (basic_field number_t)) :
    nodes_vector xs.reverse = nodes_vector xs := by
  induction xs with
  | nil => rfl
  | cons x xs ih =>
    simp [nodes_vector_append, nodes_vector, ih, Nat.add_comm]

theorem nodes_map_eq (m : List (string_t × basic_field number_t)) :
    nodes_map m = nodes_vector (m.map Prod.snd) := by
  induction m with
  | nil => rfl
  | cons e es ih => simp [nodes_map, nodes_vector, ih]

theorem nodes_eq_stored (f : basic_field number_t) (h : well_formed f) :
    f.nodes = 1 + nodes_vector f.stored_fields := by
  cases h with
  | null => rfl
  | boolean b => rfl
  | number x => rfl
  | string s => rfl
  | array a _ => simp [nodes, stored_fields, type_, payload_]
  | object m _ _ => simp [nodes, stored_fields, type_, payload_, nodes_map_eq]

theorem well_formed_stored (f : basic_field number_t) (h : well_formed f) :
    ∀ c ∈ f.stored_fields, well_formed c := by
  cases h with
  | null => intro c hc; simp [stored_fields, type_, payload_] at hc
  | boolean b => intro c hc; simp [stored_fields, type_, payload_] at hc
  | number x => intro c hc; simp [stored_fields, type_, payload_] at hc
  | string s => intro c hc; simp [stored_fields, type_, payload_] at hc
  | array a hall => intro c hc; exact hall c (by simpa [stored_fields, type_, payload_] using hc)
  | object m _ hall =>
    intro c hc
    simp only [stored_fields, type_, payload_, List.mem_map] at hc
    obtain ⟨e, he, rfl⟩ := hc
    exact hall e he

theorem ctor_move_of_well_formed [Zero number_t] (f : basic_field number_t)
    (h : well_formed f) : ctor_move f = .ok (f, mk .null (some (.object_ none))) := by
  rw [ctor_move_eq, if_pos (assert_invariant_of_payload_matches f h.payload_matches)]

theorem move_all_of_well_formed [Zero number_t] (xs : List (basic_field number_t))
    (h : ∀ c ∈ xs, well_formed c) :
    move_all xs = .ok (xs, xs.map (fun _ => mk .null (some (.object_ none))),
      xs.map (fun _ => event.create .number)) := by
  induction xs with
  | nil => rfl
  | cons x xs ih =>
    have hx := ctor_move_of_well_formed x (h x (List.mem_cons_self _ _))
    have hxs := ih (fun c hc => h c (List.mem_cons_of_mem _ hc))
    simp only [move_all, hx, hxs]
    rfl


theorem unpack_of_well_formed [Zero number_t] (g : basic_field number_t)
    (h : well_formed g) :
    unpack g = .ok (g.stored_fields, g.stored_fields.map (fun _ => moved_from),
      g.cleared_item, g.stored_fields.map (fun _ => event.create .number)) := by
  cases h with
  | null => rfl
  | boolean b => rfl
  | number x => rfl
  | string s => rfl
  | array a hall =>
    simp only [unpack, is_array, type_, payload_, stored_fields, cleared_item,
      move_all_of_well_formed a hall]
    rfl
  | object m _ hall =>
    have hvals : ∀ c ∈ m.map Prod.snd, well_formed c := by
      intro c hc
      obtain ⟨e, he, rfl⟩ := List.mem_map.mp hc
      exact hall e he
    simp only [unpack, is_array, is_object, type_, payload_, stored_fields, cleared_item,
      move_all_of_well_formed _ hvals]
    rfl

theorem fill_of_well_formed [Zero number_t] (t : field_type)
    (p : payload (basic_field number_t) number_t) (h : well_formed (mk t (some p))) :
    fill p t = .ok ((mk t (some p)).stored_fields.reverse,
      (mk t (some p)).stored_fields.map (fun _ => moved_from),
      (mk t (some p)).stored_fields.map (fun _ => event.create .number)) := by
  cases h with
  | null => rfl
  | boolean b => rfl
  | number x => rfl
  | string s => rfl
  | array a hall =>
    simp only [fill, stored_fields, type_, payload_, move_all_of_well_formed a hall]
    rfl
  | object m _ hall =>
    have hvals : ∀ c ∈ m.map Prod.snd, well_formed c := by
      intro c hc
      obtain ⟨e, he, rfl⟩ := List.mem_map.mp hc
      exact hall e he
    simp only [fill, stored_fields, type_, payload_, move_all_of_well_formed _ hvals]
    rfl

theorem destructor_leaf [Zero number_t] (fuel depth : Nat) (g : basic_field number_t)
    (h : well_formed g) (hleaf : g.stored_fields = []) :
    destructor (fuel + 3) depth g = outcome.events (leaf_events depth g) := by
  cases h with
  | null => rfl
  | boolean b => rfl
  | number x => rfl
  | string s => rfl
  | array a hall =>
    have ha : a = [] := by simpa [stored_fields, type_, payload_] using hleaf
    subst ha
    rfl
  | object m _ hall =>
    have hm : m = [] := by simpa [stored_fields, type_, payload_] using hleaf
    subst hm
    rfl


theorem well_formed_moved_from : well_formed (moved_from : basic_field number_t) :=
  well_formed.null

theorem holds_no_field_moved_from : (moved_from : basic_field number_t).holds_no_field :=
  Or.inl rfl

theorem well_formed_cleared_item (g : basic_field number_t) (h : well_formed g) :
    well_formed g.cleared_item := by
  cases h with
  | null => exact well_formed.null
  | boolean b => exact well_formed.boolean b
  | number x => exact well_formed.number x
  | string s => exact well_formed.string s
  | array a hall => exact well_formed.array [] (fun c hc => absurd hc (List.not_mem_nil c))
  | object m _ hall =>
    exact well_formed.object [] List.Pairwise.nil (fun e he => absurd he (List.not_mem_nil e))

theorem stored_fields_cleared_item (g : basic_field number_t) (h : well_formed g) :
    g.cleared_item.stored_fields = [] := by
  cases h <;> rfl

theorem holds_no_field_cleared_item (g : basic_field number_t) (h : well_formed g) :
    g.cleared_item.holds_no_field := by
  cases h with
  | null => exact Or.inl rfl
  | boolean b => exact Or.inr (Or.inl rfl)
  | number x => exact Or.inr (Or.inr (Or.inl rfl))
  | string s => exact Or.inr (Or.inr (Or.inr (Or.inl rfl)))
  | array a hall => exact Or.inr (Or.inr (Or.inr (Or.inr ⟨Or.inl rfl, rfl⟩)))
  | object m _ hall => exact Or.inr (Or.inr (Or.inr (Or.inr ⟨Or.inr rfl, rfl⟩)))

theorem popped_append (a b : List (event number_t)) :
    popped (a ++ b) = popped a ++ popped b := by
  simp [popped]

theorem popped_release_events (t : field_type) :
    popped (release_events t : List (event number_t)) = [] := by
  cases t <;> rfl

theorem popped_leaf_events (depth : Nat) (g : basic_field number_t) :
    popped (leaf_events depth g) = [] := by
  have h : popped ([event.destructor depth g, event.destroy (depth + 1) g.type_,
      event.loop_end (depth + 1) []] : List (event number_t)) = [] := rfl
  rw [leaf_events, popped_append, popped_release_events, h]
  rfl

theorem popped_creates (xs : List (basic_field number_t)) :
    popped (xs.map (fun _ => (event.create .number : event number_t))) = [] := by
  induction xs with
  | nil => rfl
  | cons x xs ih =>
    have h : popped ([event.create .number] : List (event number_t)) = [] := rfl
    rw [List.map_cons, ← List.singleton_append, popped_append, h, ih]
    rfl

theorem popped_leaves (depth : Nat) (xs : List (basic_field number_t)) :
    popped (xs.flatMap (fun _ => leaf_events depth (moved_from : basic_field number_t)))
      = [] := by
  induction xs with
  | nil => rfl
  | cons x xs ih =>
    simp only [List.flatMap_cons, popped_append, popped_leaf_events, ih]
    rfl

theorem descendants_map_eq (m : List (string_t × basic_field number_t)) :
    descendants_map m = descendants_vector (m.map Prod.snd) := by
  induction m with
  | nil => rfl
  | cons e es ih => simp [descendants_map, descendants_vector, ih]

theorem descendants_eq_stored (f : basic_field number_t) (h : well_formed f) :
    f.descendants = descendants_vector f.stored_fields := by
  cases h with
  | null => rfl
  | boolean b => rfl
  | number x => rfl
  | string s => rfl
  | array a _ => simp [descendants, stored_fields, type_, payload_]
  | object m _ _ => simp [descendants, stored_fields, type_, payload_, descendants_map_eq]

theorem descendants_vector_eq_flatMap (xs : List (basic_field number_t)) :
    descendants_vector xs = xs.flatMap (fun x => x :: descendants x) := by
  induction xs with
  | nil => rfl
  | cons x xs ih => simp [descendants_vector, ih]

theorem descendants_vector_append (xs ys : List (basic_field number_t)) :
    descendants_vector (xs ++ ys) = descendants_vector xs ++ descendants_vector ys := by
  simp [descendants_vector_eq_flatMap]

theorem descendants_vector_reverse (xs : List (basic_field number_t)) :
    (descendants_vector xs.reverse).Perm (descendants_vector xs) := by
  rw [descendants_vector_eq_flatMap, descendants_vector_eq_flatMap]
  exact List.Perm.flatMap_right _ (List.reverse_perm xs)

theorem length_descendants_vector (xs : List (basic_field number_t))
    (h : ∀ c ∈ xs, (descendants c).length + 1 = nodes c) :
    (descendants_vector xs).length = nodes_vector xs := by
  induction xs with
  | nil => rfl
  | cons x xs ih =>
    have hx := h x (List.mem_cons_self _ _)
    have hxs := ih (fun c hc => h c (List.mem_cons_of_mem _ hc))
    simp only [descendants_vector, nodes_vector, List.length_cons, List.length_append, hxs]
    omega

theorem length_descendants (f : basic_field number_t) (h : well_formed f) :
    f.descendants.length + 1 = f.nodes := by
  induction h with
  | null => rfl
  | boolean b => rfl
  | number x => rfl
  | string s => rfl
  | array a _ ih =>
    simp only [descendants, nodes, length_descendants_vector a ih]
    omega
  | object m _ _ ih =>
    have hvals : ∀ c ∈ m.map Prod.snd, (descendants c).length + 1 = nodes c := by
      intro c hc
      obtain ⟨e, he, rfl⟩ := List.mem_map.mp hc
      exact ih e he
    simp only [descendants, nodes, descendants_map_eq, nodes_map_eq,
      length_descendants_vector _ hvals]
    omega

theorem within_release_events (level : Nat) (t : field_type) :
    ∀ e ∈ (release_events t : List (event number_t)), e.within level := by
  intro e he
  cases t <;> simp [release_events] at he <;> subst he <;> exact trivial

theorem within_leaf_events (level : Nat) (g : basic_field number_t)
    (hg : g.holds_no_field) : ∀ e ∈ leaf_events level g, e.within level := by
  intro e he
  simp only [leaf_events, List.mem_append, List.mem_cons, List.mem_singleton,
    List.not_mem_nil, or_false] at he
  rcases he with (rfl | rfl | rfl) | he
  · exact ⟨rfl, hg⟩
  · exact rfl
  · exact ⟨Or.inr rfl, rfl⟩
  · exact within_release_events level _ e he

theorem within_creates (level : Nat) (xs : List (basic_field number_t)) :
    ∀ e ∈ xs.map (fun _ => (event.create .number : event number_t)), e.within level := by
  intro e he
  obtain ⟨_, _, rfl⟩ := List.mem_map.mp he
  exact trivial

theorem within_leaves (level : Nat) (xs : List (basic_field number_t)) :
    ∀ e ∈ xs.flatMap (fun _ => leaf_events level (moved_from : basic_field number_t)),
      e.within level := by
  intro e he
  obtain ⟨_, _, he'⟩ := List.mem_flatMap.mp he
  exact within_leaf_events level _ holds_no_field_moved_from e he'

theorem seq_destructor_moved_from [Zero number_t] (fuel level : Nat)
    (xs : List (basic_field number_t)) :
    outcome.seq ((xs.map (fun _ => (moved_from : basic_field number_t))).map
        (fun g => destructor (fuel + 3) level g)) =
      outcome.events (xs.flatMap (fun _ => leaf_events level moved_from)) := by
  induction xs with
  | nil => rfl
  | cons x xs ih =>
    simp only [List.map_cons, outcome.seq, List.flatMap_cons, ih,
      destructor_leaf fuel level moved_from well_formed_moved_from rfl,
      outcome.and_then_events]

theorem loop_of_well_formed [Zero number_t] (fuel level : Nat)
    (stack : List (basic_field number_t)) (hwf : ∀ x ∈ stack, well_formed x)
    (hfuel : nodes_vector stack + 3 ≤ fuel) :
    ∃ tr, loop fuel level stack = outcome.events tr ∧
      (popped tr).Perm (descendants_vector stack) ∧ (∀ e ∈ tr, e.within level) ∧
      ∃ tr₀, tr = tr₀ ++ [event.loop_end level []] := by
  induction fuel generalizing stack with
  | zero => omega
  | succ fuel ih =>
    cases stack with
    | nil =>
      refine ⟨[event.loop_end level []], rfl, List.Perm.refl _, ?_, ⟨[], rfl⟩⟩
      intro e he
      rw [List.mem_singleton] at he
      subst he
      exact ⟨Or.inl rfl, rfl⟩
    | cons back rest =>
      have hb : well_formed back := hwf back (List.mem_cons_self _ _)
      have hrest : ∀ x ∈ rest, well_formed x := fun x hx => hwf x (List.mem_cons_of_mem _ hx)
      have hnodes := nodes_eq_stored back hb
      have hstack : nodes_vector (back :: rest) = nodes back + nodes_vector rest := rfl
      have hnext : ∀ x ∈ back.stored_fields.reverse ++ rest, well_formed x := by
        intro x hx
        rcases List.mem_append.mp hx with hx | hx
        · exact well_formed_stored back hb x (List.mem_reverse.mp hx)
        · exact hrest x hx
      have hcount : nodes_vector (back.stored_fields.reverse ++ rest)
          = nodes_vector back.stored_fields + nodes_vector rest := by
        rw [nodes_vector_append, nodes_vector_reverse]
      obtain ⟨tr', htr', hpops', hwithin', tr₀, htr₀⟩ :=
        ih (back.stored_fields.reverse ++ rest) hnext (by omega)
      obtain ⟨fuel', rfl⟩ : ∃ fuel', fuel = fuel' + 3 := ⟨fuel - 3, by omega⟩
      refine ⟨[event.pop level back] ++ ctor_move_events
        ++ leaf_events level moved_from
        ++ back.stored_fields.map (fun _ => event.create .number)
        ++ back.stored_fields.flatMap (fun _ => leaf_events level moved_from)
        ++ leaf_events level back.cleared_item
        ++ tr', ?_, ?_, ?_, ?_⟩
      · simp only [loop, ctor_move_of_well_formed back hb, unpack_of_well_formed back hb]
        rw [show (mk field_type.null (some (payload.object_ none)) : basic_field number_t)
          = moved_from from rfl]
        simp only [seq_destructor_moved_from,
          destructor_leaf fuel' level moved_from well_formed_moved_from rfl,
          destructor_leaf fuel' level back.cleared_item (well_formed_cleared_item back hb)
            (stored_fields_cleared_item back hb), htr', outcome.seq, outcome.and_then_events]
        simp
      · have h1 : popped ([event.pop level back] : List (event number_t)) = [back] := rfl
        have h2 : popped (ctor_move_events : List (event number_t)) = [] := rfl
        simp only [popped_append, popped_leaf_events, popped_creates, popped_leaves, h1, h2,
          List.append_nil, List.singleton_append, descendants_vector,
          descendants_eq_stored back hb]
        refine List.Perm.cons back (hpops'.trans ?_)
        rw [descendants_vector_append]
        exact List.Perm.append_right _ (descendants_vector_reverse _)
      · intro e he
        simp only [List.mem_append, List.mem_singleton] at he
        rcases he with (((((he | he) | he) | he) | he) | he) | he
        · subst he
          exact rfl
        · simp [ctor_move_events, payload.of_field_type_events] at he
          subst he
          exact trivial
        · exact within_leaf_events level _ holds_no_field_moved_from e he
        · exact within_creates level _ e he
        · exact within_leaves level _ e he
        · exact within_leaf_events level _ (holds_no_field_cleared_item back hb) e he
        · exact hwithin' e he
      · refine ⟨[event.pop level back] ++ ctor_move_events
          ++ leaf_events level moved_from
          ++ back.stored_fields.map (fun _ => event.create .number)
          ++ back.stored_fields.flatMap (fun _ => leaf_events level moved_from)
          ++ leaf_events level back.cleared_item
          ++ tr₀, ?_⟩
        rw [htr₀]
        simp only [List.append_assoc]


theorem destroy_of_well_formed [Zero number_t] (fuel level : Nat) (t : field_type)
    (p : payload (basic_field number_t) number_t) (hwf : well_formed (mk t (some p)))
    (trl : List (event number_t))
    (hl : loop (fuel + 3) level (mk t (some p)).stored_fields.reverse = outcome.events trl) :
    destroy (fuel + 4) level p t = outcome.events
      ([event.destroy level t]
        ++ (mk t (some p)).stored_fields.map (fun _ => event.create .number)
        ++ trl
        ++ (mk t (some p)).stored_fields.flatMap (fun _ => leaf_events level moved_from)
        ++ release_events t) := by
  have hfill := fill_of_well_formed t p hwf
  cases hwf with
  | null =>
    simp only [destroy, hfill, hl, outcome.seq, outcome.and_then_events]
    simp [stored_fields, type_, payload_, release_events]
  | boolean b =>
    simp only [destroy, hfill, hl, outcome.seq, outcome.and_then_events]
    simp [stored_fields, type_, payload_, release_events]
  | number x =>
    simp only [destroy, hfill, hl, outcome.seq, outcome.and_then_events]
    simp [stored_fields, type_, payload_, release_events]
  | string s =>
    simp only [destroy, hfill, hl, outcome.seq, outcome.and_then_events]
    simp [stored_fields, type_, payload_, release_events]
  | array a hall =>
    simp only [destroy, hfill, hl, seq_destructor_moved_from, outcome.seq,
      outcome.and_then_events]
    simp [release_events]
  | object m _ hall =>
    simp only [destroy, hfill, hl, seq_destructor_moved_from, outcome.seq,
      outcome.and_then_events]
    simp [release_events]

theorem destructor_of_loop [Zero number_t] (fuel depth : Nat) (f : basic_field number_t)
    (hwf : well_formed f) (trl : List (event number_t))
    (hl : loop (fuel + 3) (depth + 1) f.stored_fields.reverse = outcome.events trl) :
    destructor (fuel + 5) depth f = outcome.events
      ([event.destructor depth f, event.destroy (depth + 1) f.type_]
        ++ f.stored_fields.map (fun _ => event.create .number)
        ++ trl
        ++ f.stored_fields.flatMap (fun _ => leaf_events (depth + 1) moved_from)
        ++ release_events f.type_) := by
  have hinv := assert_invariant_of_payload_matches f hwf.payload_matches
  obtain ⟨t, p, rfl⟩ : ∃ t p, f = mk t (some p) := by
    cases hwf <;> exact ⟨_, _, rfl⟩
  simp only [destructor, hinv, payload_, type_, destroy_of_well_formed fuel (depth + 1) t p
    hwf trl hl, outcome.seq, outcome.and_then_events]
  simp

theorem destructor_of_well_formed [Zero number_t] (fuel depth : Nat)
    (f : basic_field number_t) (hwf : well_formed f) (hfuel : f.nodes + 2 ≤ fuel) :
    ∃ trl tr₀, loop fuel (depth + 1) f.stored_fields.reverse = outcome.events trl ∧
      trl = tr₀ ++ [event.loop_end (depth + 1) []] ∧
      destructor (fuel + 2) depth f = outcome.events
        ([event.destructor depth f, event.destroy (depth + 1) f.type_]
          ++ f.stored_fields.map (fun _ => event.create .number)
          ++ trl
          ++ f.stored_fields.flatMap (fun _ => leaf_events (depth + 1) moved_from)
          ++ release_events f.type_) ∧
      (popped trl).Perm f.descendants ∧
      (∀ e ∈ trl, e.within (depth + 1)) := by
  have hnodes := nodes_eq_stored f hwf
  obtain ⟨fuel', rfl⟩ : ∃ fuel', fuel = fuel' + 3 := ⟨fuel - 3, by omega⟩
  obtain ⟨trl, hl, hpl, hwl, tr₀, htr₀⟩ := loop_of_well_formed (fuel' + 3) (depth + 1)
    f.stored_fields.reverse
    (fun x hx => well_formed_stored f hwf x (List.mem_reverse.mp hx))
    (by rw [nodes_vector_reverse]; omega)
  refine ⟨trl, tr₀, hl, htr₀, destructor_of_loop fuel' depth f hwf trl hl, ?_, hwl⟩
  rw [descendants_eq_stored f hwf]
  exact hpl.trans (descendants_vector_reverse _)


theorem events_injective (a b : List (event number_t))
    (h : outcome.events a = outcome.events b) : a = b := by
  simp only [outcome.events, Option.some.injEq, Except.ok.injEq] at h
  exact h

/-- C17, refuted as stated. Destroying the array `["x"]` runs, from inside the root's
`payload::destroy`, the destructor of the popped `current_item`, which is the String
field "x": a field that is not null and has no container that was emptied. -/
theorem destroy_scalar_item_counterexample :
    destructor 6 0 (mk .array (some (.array_ (some [ctor_string "x"]))) : basic_field Int) =
        outcome.events
          [.destructor 0 (mk .array (some (.array_ (some [ctor_string "x"])))),
            .destroy 1 .array, .create .number,
            .pop 1 (ctor_string "x"), .create .number,
            .destructor 1 moved_from, .destroy 2 .null, .loop_end 2 [],
            .destructor 1 (ctor_string "x"), .destroy 2 .string, .loop_end 2 [],
            .release .string,
            .loop_end 1 [],
            .destructor 1 moved_from, .destroy 2 .null, .loop_end 2 [],
            .release .array] ∧
      (ctor_string "x" : basic_field Int).is_null = false ∧
      (ctor_string "x" : basic_field Int).is_array = false ∧
      (ctor_string "x" : basic_field Int).is_object = false ∧
      (ctor_string "x" : basic_field Int).is_string = true :=
  ⟨rfl, rfl, rfl, rfl, rfl⟩

/-- C17, amended. For every well-formed value tree `f`, of any nesting depth, and fuel of
at least `f.nodes + 4`, the destructor of the root runs to completion; every destructor it
enters is the root's own or is entered from the root's `payload::destroy` on a field that
holds no field (a null field, a Boolean, Number or String, or an array or object whose
container has been emptied); so every call of `payload::destroy` is the first or the
second running one, whatever the depth of the tree. -/
theorem destruction_depth_independence [Zero number_t] (f : basic_field number_t)
    (fuel : Nat) (hwf : well_formed f) (hfuel : f.nodes + 4 ≤ fuel) :
    ∃ tr, destructor fuel 0 f = outcome.events tr ∧
      (∀ depth g, event.destructor depth g ∈ tr →
        (depth = 0 ∧ g = f) ∨ (depth = 1 ∧ g.holds_no_field)) ∧
      (∀ level t, event.destroy level t ∈ tr → level = 1 ∨ level = 2) := by
  obtain ⟨fuel', rfl⟩ : ∃ fuel', fuel = fuel' + 2 := ⟨fuel - 2, by omega⟩
  obtain ⟨trl, tr₀, _, _, hd, _, hwl⟩ :=
    destructor_of_well_formed fuel' 0 f hwf (by omega)
  have hall : ∀ e ∈ [event.destructor 0 f, event.destroy (0 + 1) f.type_]
      ++ f.stored_fields.map (fun _ => event.create .number)
      ++ trl
      ++ f.stored_fields.flatMap (fun _ => leaf_events (0 + 1) moved_from)
      ++ release_events f.type_,
      e = event.destructor 0 f ∨ e = event.destroy 1 f.type_ ∨ e.within 1 := by
    intro e he
    simp only [List.mem_append, List.mem_cons, List.mem_singleton, List.not_mem_nil,
      or_false] at he
    rcases he with ((((he | he) | he) | he) | he) | he
    · exact Or.inl he
    · exact Or.inr (Or.inl he)
    · exact Or.inr (Or.inr (within_creates _ _ e he))
    · exact Or.inr (Or.inr (hwl e he))
    · exact Or.inr (Or.inr (within_leaves _ _ e he))
    · exact Or.inr (Or.inr (within_release_events _ _ e he))
  refine ⟨_, hd, ?_, ?_⟩
  · intro depth g hg
    rcases hall _ hg with h | h | h
    · cases h
      exact Or.inl ⟨rfl, rfl⟩
    · cases h
    · exact Or.inr h
  · intro level t ht
    rcases hall _ ht with h | h | h
    · cases h
    · cases h
      exact Or.inl rfl
    · exact Or.inr h

/-- A witness of `destruction_depth_independence`: the array `[["x"]]`, of three fields. -/
theorem destruction_depth_independence_witness :
    ∃ tr, destructor 7 0 (mk .array (some (.array_ (some
        [mk .array (some (.array_ (some [ctor_string "x"])))]))) : basic_field Int)
        = outcome.events tr ∧
      (∀ depth g, event.destructor depth g ∈ tr →
        (depth = 0 ∧ g = mk .array (some (.array_ (some
          [mk .array (some (.array_ (some [ctor_string "x"])))])))) ∨
        (depth = 1 ∧ g.holds_no_field)) ∧
      (∀ level t, event.destroy level t ∈ tr → level = 1 ∨ level = 2) :=
  destruction_depth_independence _ 7
    (well_formed.array _ (fun c hc => by
      rw [List.mem_singleton] at hc
      subst hc
      exact well_formed.array _ (fun c hc => by
        rw [List.mem_singleton] at hc
        subst hc
        exact well_formed.string "x")))
    (by decide)

/-- C19 (worklist teardown). For every well-formed value tree `f` and fuel of at least
`f.nodes + 2`, the while loop of the root's `payload::destroy`, started on the worklist
the first block fills with the fields stored in `f`, runs to completion, and the
destructor of `f` is that loop between the filling and the switch. The items the loop
pops are, up to order, the proper descendants of `f`, each once; the loop ends with the
worklist empty; every destructor entered during the loop is on a field that holds no
field, and the fields the switch destroys with the root's container are moved-from null
fields; for a root that is neither array nor object the loop body never runs. -/
theorem worklist_teardown [Zero number_t] (f : basic_field number_t) (fuel : Nat)
    (hwf : well_formed f) (hfuel : f.nodes + 2 ≤ fuel) :
    ∃ trl tr₀, loop fuel 1 f.stored_fields.reverse = outcome.events trl ∧
      destructor (fuel + 2) 0 f = outcome.events
        ([event.destructor 0 f, event.destroy 1 f.type_]
          ++ f.stored_fields.map (fun _ => event.create .number)
          ++ trl
          ++ f.stored_fields.flatMap (fun _ => leaf_events 1 moved_from)
          ++ release_events f.type_) ∧
      trl = tr₀ ++ [event.loop_end 1 []] ∧
      (popped trl).Perm f.descendants ∧ pops trl = f.descendants.length ∧
      f.descendants.length + 1 = f.nodes ∧
      (∀ level g, event.pop level g ∈ trl → level = 1) ∧
      (∀ level stack, event.loop_end level stack ∈ trl → stack = []) ∧
      (∀ depth g, event.destructor depth g ∈ trl → depth = 1 ∧ g.holds_no_field) ∧
      (f.is_array = false → f.is_object = false → trl = [event.loop_end 1 []]) := by
  obtain ⟨trl, tr₀, hl, htr₀, hd, hperm, hwl⟩ :=
    destructor_of_well_formed fuel 0 f hwf hfuel
  refine ⟨trl, tr₀, hl, hd, htr₀, hperm, hperm.length_eq, length_descendants f hwf,
    ?_, ?_, ?_, ?_⟩
  · intro level g hg
    exact hwl _ hg
  · intro level stack hs
    exact (hwl _ hs).2
  · intro depth g hg
    exact hwl _ hg
  · intro harr hobj
    have hstored : f.stored_fields = [] := by
      cases hwf with
      | null => rfl
      | boolean b => rfl
      | number x => rfl
      | string s => rfl
      | array a _ => simp [is_array, type_] at harr
      | object m _ _ => simp [is_object, type_] at hobj
    obtain ⟨fuel', rfl⟩ : ∃ fuel', fuel = fuel' + 1 := ⟨fuel - 1, by omega⟩
    rw [hstored] at hl
    exact (events_injective _ _ hl).symm

/-- A witness of `worklist_teardown`: for the array `[["x"]]` the loop pops the inner
array and the String "x", its two proper descendants. -/
theorem worklist_teardown_witness :
    ∃ trl tr₀, loop 5 1 (mk .array (some (.array_ (some
        [mk .array (some (.array_ (some [ctor_string "x"])))]))) :
          basic_field Int).stored_fields.reverse = outcome.events trl ∧
      trl = tr₀ ++ [event.loop_end 1 []] ∧
      (popped trl).Perm
        [mk .array (some (.array_ (some [ctor_string "x"]))), ctor_string "x"] ∧
      pops trl = 2 :=
  have h := worklist_teardown (mk .array (some (.array_ (some
      [mk .array (some (.array_ (some [ctor_string "x"])))]))) : basic_field Int) 5
    (well_formed.array _ (fun c hc => by
      rw [List.mem_singleton] at hc
      subst hc
      exact well_formed.array _ (fun c hc => by
        rw [List.mem_singleton] at hc
        subst hc
        exact well_formed.string "x")))
    (by decide)
  match h with
  | ⟨trl, tr₀, hl, _, htr₀, hperm, hpops, _, _, _, _, _⟩ => ⟨trl, tr₀, hl, htr₀, hperm, hpops⟩

/-- C20, evaluated on the code. The run `Field a("x"); Field b(std::move(a));` followed by
the destructors of `b` and of `a` obtains two cells through `create`, the string cell of
`a` and the number cell the move constructor builds for the moved-from source, and
releases one, the string cell: the number cell is never released. -/
theorem move_constructor_leaks_number_cell :
    ctor_move (ctor_string "x" : basic_field Int) = .ok (ctor_string "x", moved_from) ∧
      (ctor_move_events : List (event Int)) = [.create .number] ∧
      destructor 3 0 (ctor_string "x" : basic_field Int) = outcome.events
        [.destructor 0 (ctor_string "x"), .destroy 1 .string, .loop_end 1 [],
          .release .string] ∧
      destructor 3 0 (moved_from : basic_field Int) = outcome.events
        [.destructor 0 moved_from, .destroy 1 .null, .loop_end 1 []] ∧
      creates ((ctor_string_events : List (event Int)) ++ ctor_move_events
        ++ [.destructor 0 (ctor_string "x"), .destroy 1 .string, .loop_end 1 [],
          .release .string]
        ++ [.destructor 0 moved_from, .destroy 1 .null, .loop_end 1 []]) = 2 ∧
      releases ((ctor_string_events : List (event Int)) ++ ctor_move_events
        ++ [.destructor 0 (ctor_string "x"), .destroy 1 .string, .loop_end 1 [],
          .release .string]
        ++ [.destructor 0 moved_from, .destroy 1 .null, .loop_end 1 []]) = 1 ∧
      (event.release .number : event Int) ∉
        ((ctor_string_events : List (event Int)) ++ ctor_move_events
        ++ [.destructor 0 (ctor_string "x"), .destroy 1 .string, .loop_end 1 [],
          .release .string]
        ++ [.destructor 0 moved_from, .destroy 1 .null, .loop_end 1 []]) := by
  refine ⟨rfl, rfl, rfl, rfl, rfl, rfl, ?_⟩
  simp [ctor_string_events, ctor_move_events, payload.of_field_type_events]

end basic_field

end friedrichdb.core

/-! ## The document: the index invariant -/

namespace friedrichdb.document

open friedrichdb.core

theorem emplace_all_append (d : document) (ops : List (String × object)) (k : String)
    (v : object) : emplace_all d (ops ++ [(k, v)]) = (emplace_all d ops).emplace k v := by
  simp [emplace_all, List.foldl_append]

theorem index_invariant_of_emplace_all (ops : List (String × object)) :
    (∀ e ∈ (emplace_all ctor_default ops).index,
        e.2.name = e.1 ∧ e.2.position < (emplace_all ctor_default ops).storage_.length) ∧
      (emplace_all ctor_default ops).storage_ = ops.map Prod.snd ∧
      (∀ k, (basic_map_t.find k (emplace_all ctor_default ops).index = none ∧
            ∀ e ∈ ops, e.1 ≠ k) ∨
          ∃ m v, basic_map_t.find k (emplace_all ctor_default ops).index = some m ∧
            ops.find? (fun e => decide (e.1 = k)) = some (k, v) ∧
            (emplace_all ctor_default ops).storage_.get? m.position = some v) := by
  induction ops using List.reverseRecOn with
  | nil =>
    refine ⟨?_, rfl, ?_⟩
    · intro e he
      simp [emplace_all, ctor_default] at he
    · intro k
      exact Or.inl ⟨rfl, fun e he => absurd he (List.not_mem_nil e)⟩
  | append_singleton ops e ih =>
    obtain ⟨k0, v0⟩ := e
    obtain ⟨hentries, hstorage, hfind⟩ := ih
    rw [emplace_all_append]
    generalize emplace_all ctor_default ops = d at hentries hstorage hfind
    refine ⟨?_, ?_, ?_⟩
    · intro e he
      rcases basic_map_t.mem_emplace k0 _ d.index e he with he | he
      · subst he
        simp [emplace]
      · have h := hentries e he
        refine ⟨h.1, ?_⟩
        simp only [emplace, List.length_append, List.length_singleton]
        omega
    · simp [emplace, hstorage]
    · intro k
      by_cases hk : k = k0
      · subst hk
        rcases hfind k with ⟨hnone, hall⟩ | ⟨m, v, hm, hfirst, hget⟩
        · refine Or.inr ⟨manager.mk d.storage_.length k, v0, ?_, ?_, ?_⟩
          · simp [emplace, basic_map_t.find_emplace_self, hnone]
          · rw [List.find?_append]
            have hnot : ops.find? (fun e => decide (e.1 = k)) = none := by
              rw [List.find?_eq_none]
              intro e he
              simpa using hall e he
            simp [hnot]
          · simp [emplace]
        · refine Or.inr ⟨m, v, ?_, ?_, ?_⟩
          · simp [emplace, basic_map_t.find_emplace_self, hm]
          · rw [List.find?_append, hfirst]
            rfl
          · have hlt : m.position < d.storage_.length := by
              by_contra hge
              rw [List.get?_eq_none.mpr (Nat.le_of_not_lt hge)] at hget
              cases hget
            simp only [emplace, List.get?_eq_getElem?] at hget ⊢
            rw [List.getElem?_append_left hlt]
            exact hget
      · rcases hfind k with ⟨hnone, hall⟩ | ⟨m, v, hm, hfirst, hget⟩
        · refine Or.inl ⟨?_, ?_⟩
          · simp [emplace, basic_map_t.find_emplace_of_ne k0 k _ d.index hk, hnone]
          · intro e he
            rcases List.mem_append.mp he with he | he
            · exact hall e he
            · rw [List.mem_singleton] at he
              subst he
              exact fun h => hk h.symm
        · refine Or.inr ⟨m, v, ?_, ?_, ?_⟩
          · simp [emplace, basic_map_t.find_emplace_of_ne k0 k _ d.index hk, hm]
          · rw [List.find?_append, hfirst]
            rfl
          · have hlt : m.position < d.storage_.length := by
              by_contra hge
              rw [List.get?_eq_none.mpr (Nat.le_of_not_lt hge)] at hget
              cases hget
            simp only [emplace, List.get?_eq_getElem?] at hget ⊢
            rw [List.getElem?_append_left hlt]
            exact hget

/-- C21 (document index invariant). For the document reached from the empty document by
the emplace calls `ops`, repeated keys included: every entry of the index maps its key to
a manager whose name is that key and whose position is below the number of stored values;
there is one stored value per call; `at(k)` succeeds for every key `k` that has been
emplaced and returns the value of the first emplace of `k`. When `at(k)` returns `w`, a
further `emplace(k, v)` adds one stored value, leaves the index as it is, and `at(k)`
still returns `w`. -/
theorem document_index_invariant (ops : List (String × object)) (k : String) (v : object) :
    (∀ e ∈ (emplace_all ctor_default ops).index,
        e.2.name = e.1 ∧ e.2.position < (emplace_all ctor_default ops).storage_.length) ∧
      (emplace_all ctor_default ops).storage_.length = ops.length ∧
      ((∃ u, (k, u) ∈ ops) →
        ∃ w, ops.find? (fun e => decide (e.1 = k)) = some (k, w) ∧
          (emplace_all ctor_default ops).at_key k = .ok w) ∧
      (∀ w, (emplace_all ctor_default ops).at_key k = .ok w →
        emplace_all ctor_default (ops ++ [(k, v)]) = (emplace_all ctor_default ops).emplace k v ∧
        ((emplace_all ctor_default ops).emplace k v).storage_.length
          = (emplace_all ctor_default ops).storage_.length + 1 ∧
        ((emplace_all ctor_default ops).emplace k v).index
          = (emplace_all ctor_default ops).index ∧
        ((emplace_all ctor_default ops).emplace k v).at_key k = .ok w) := by
  obtain ⟨hentries, hstorage, hfind⟩ := index_invariant_of_emplace_all ops
  refine ⟨hentries, by simp [hstorage], ?_, ?_⟩
  · rintro ⟨u, hu⟩
    rcases hfind k with ⟨_, hall⟩ | ⟨m, w, hm, hfirst, hget⟩
    · exact absurd rfl (hall (k, u) hu)
    · exact ⟨w, hfirst, by simp only [at_key, hm, hget]⟩
  · intro w hw
    refine ⟨emplace_all_append _ ops k v, by simp [emplace], ?_⟩
    generalize emplace_all ctor_default ops = d at hw
    cases hm : basic_map_t.find k d.index with
    | none => simp [at_key, hm] at hw
    | some m =>
      have hidx : (d.emplace k v).index = d.index := by
        simp only [emplace]
        exact basic_map_t.emplace_of_find_some k _ m d.index hm
      refine ⟨hidx, ?_⟩
      simp only [at_key, hm, List.get?_eq_getElem?] at hw
      cases hget : d.storage_[m.position]? with
      | none => simp [hget] at hw
      | some x =>
        simp only [hget, Except.ok.injEq] at hw
        subst hw
        have hlt : m.position < d.storage_.length := by
          by_contra hge
          rw [List.getElem?_eq_none (Nat.le_of_not_lt hge)] at hget
          cases hget
        have hget' : (d.emplace k v).storage_[m.position]? = some x := by
          simp only [emplace]
          rw [List.getElem?_append_left hlt]
          exact hget
        simp only [at_key, hidx, hm, List.get?_eq_getElem?, hget']

/-- A witness of `document_index_invariant`: after `d.emplace("a", "1"); d.emplace("a",
"2")` two values are stored and `at("a")` returns "1". -/
theorem document_index_invariant_witness :
    (emplace_all ctor_default [("a", "1"), ("a", "2")]).storage_.length = 2 ∧
      (emplace_all ctor_default [("a", "1"), ("a", "2")]).at_key "a" = .ok "1" := by
  have h := document_index_invariant [("a", "1"), ("a", "2")] "a" "3"
  refine ⟨h.2.1, ?_⟩
  obtain ⟨w, hfirst, hat⟩ := h.2.2.1 ⟨"1", by simp⟩
  have hw : w = "1" := by
    simp [List.find?] at hfirst
    exact hfirst.symm
  rw [hat, hw]

end friedrichdb.document
